import Mathlib

/-!
Verification development for the jsdoc import-alias resolution plugin
(src/plugins/import-aliases.js).  Every definition below is a shallow
embedding of the corresponding JavaScript function, keeping the source
names where Lean allows it.  JavaScript Map objects are modelled as
insertion-ordered association lists (first-match lookup, in-place
value replacement on set, append on fresh keys), which matches the
iteration-order and mutation semantics of JS Map exactly.  JavaScript
strings are modelled as Lean String values; the string operations the
plugin uses (slice, split, trim, startsWith, join, template literals)
are defined below on the underlying character list so that their
semantics are spelled out explicitly.
-/

set_option maxRecDepth 4000

namespace ImportAliases

/-! ## Association-list model of JS Map -/

/-- First-match lookup: the model of JS Map.get (and Map.has via isSome). -/
def lookupL {β : Type} : List (String × β) → String → Option β
  | [], _ => none
  | (k, v) :: t, a => if k = a then some v else lookupL t a

/-- JS Map.set: replace the value in place if the key is present
(keeping its position, hence insertion order), otherwise append. -/
def mapSet {β : Type} : List (String × β) → String → β → List (String × β)
  | [], k, v => [(k, v)]
  | (k', v') :: t, k, v => if k' = k then (k, v) :: t else (k', v') :: mapSet t k v

def keysOf {β : Type} (l : List (String × β)) : List String := l.map Prod.fst

theorem lookupL_append_left {β : Type} {l₁ : List (String × β)} (l₂ : List (String × β))
    {a : String} (h : a ∉ keysOf l₁) : lookupL (l₁ ++ l₂) a = lookupL l₂ a := by
  induction l₁ with
  | nil => rfl
  | cons p t ih =>
    simp only [keysOf, List.map_cons, List.mem_cons, not_or] at h
    have hne : ¬ p.1 = a := fun hh => h.1 hh.symm
    simp only [List.cons_append, lookupL, if_neg hne]
    exact ih (by simpa [keysOf] using h.2)

theorem mapSet_append_left {β : Type} {l₁ : List (String × β)} (l₂ : List (String × β))
    {a : String} (v : β) (h : a ∉ keysOf l₁) :
    mapSet (l₁ ++ l₂) a v = l₁ ++ mapSet l₂ a v := by
  induction l₁ with
  | nil => rfl
  | cons p t ih =>
    simp only [keysOf, List.map_cons, List.mem_cons, not_or] at h
    have hne : ¬ p.1 = a := fun hh => h.1 hh.symm
    simp only [List.cons_append, mapSet, if_neg hne, List.append_eq]
    rw [ih (by simpa [keysOf] using h.2)]

theorem lookupL_mapSet_self {β : Type} (l : List (String × β)) (k : String) (v : β) :
    lookupL (mapSet l k v) k = some v := by
  induction l with
  | nil => simp [mapSet, lookupL]
  | cons p t ih =>
    by_cases h : p.1 = k
    · simp [mapSet, h, lookupL]
    · simp [mapSet, h, lookupL, ih]

theorem lookupL_mapSet_ne {β : Type} (l : List (String × β)) {k a : String} (v : β)
    (h : a ≠ k) : lookupL (mapSet l k v) a = lookupL l a := by
  have hka : ¬ k = a := fun hh => h hh.symm
  induction l with
  | nil => simp [mapSet, lookupL, hka]
  | cons p t ih =>
    by_cases hp : p.1 = k
    · simp only [mapSet, if_pos hp, lookupL, if_neg hka, hp, if_neg hka]
    · simp only [mapSet, if_neg hp, lookupL, ih]

theorem keysOf_mapSet_mem {β : Type} (l : List (String × β)) (k : String) (v : β) :
    ∀ a, a ∈ keysOf (mapSet l k v) → a ∈ keysOf l ∨ a = k := by
  induction l with
  | nil => intro a ha; simp [mapSet, keysOf] at ha; right; exact ha
  | cons p t ih =>
    intro a ha
    by_cases hp : p.1 = k
    · simp only [mapSet, if_pos hp, keysOf, List.map_cons, List.mem_cons] at ha ⊢
      rcases ha with h | h
      · right; exact h
      · left; right; exact h
    · simp only [mapSet, if_neg hp, keysOf, List.map_cons, List.mem_cons] at ha ⊢
      rcases ha with h | h
      · left; left; exact h
      · rcases ih a h with h' | h'
        · left; right; exact h'
        · right; exact h'

theorem lookupL_eq_none_iff {β : Type} (l : List (String × β)) (a : String) :
    lookupL l a = none ↔ a ∉ keysOf l := by
  induction l with
  | nil => simp [lookupL, keysOf]
  | cons p t ih =>
    by_cases h : p.1 = a
    · simp [lookupL, h, keysOf]
    · simp [lookupL, h, keysOf, ih, Ne.symm h]

theorem lookupL_eq_of_mem_nodup {β : Type} {l : List (String × β)} {k : String} {v : β}
    (hnd : (keysOf l).Nodup) (hmem : (k, v) ∈ l) : lookupL l k = some v := by
  induction l with
  | nil => cases hmem
  | cons p t ih =>
    simp only [keysOf, List.map_cons, List.nodup_cons] at hnd
    rcases List.mem_cons.mp hmem with h | h
    · subst h; simp [lookupL]
    · have hne : p.1 ≠ k := by
        intro he
        exact hnd.1 (he ▸ (List.mem_map.mpr ⟨(k, v), h, rfl⟩))
      simp only [lookupL, if_neg hne]
      exact ih hnd.2 h

theorem mem_values_eq_of_nodup {β : Type} {l : List (String × β)} {k : String} {v v' : β}
    (hnd : (keysOf l).Nodup) (h : (k, v) ∈ l) (h' : (k, v') ∈ l) : v = v' := by
  have h1 := lookupL_eq_of_mem_nodup hnd h
  have h2 := lookupL_eq_of_mem_nodup hnd h'
  rw [h1] at h2
  exact (Option.some.injEq _ _).mp h2

/-- Permuting a duplicate-free association list does not change lookups. -/
theorem lookupL_perm {β : Type} {l₁ l₂ : List (String × β)}
    (hp : List.Perm l₁ l₂) (hnd : (keysOf l₁).Nodup) (a : String) :
    lookupL l₁ a = lookupL l₂ a := by
  induction hp with
  | nil => rfl
  | cons p _ ih =>
    simp only [keysOf, List.map_cons, List.nodup_cons] at hnd
    by_cases h : p.1 = a
    · simp [lookupL, h]
    · simp only [lookupL, if_neg h]
      exact ih hnd.2
  | swap p q l =>
    simp only [keysOf, List.map_cons, List.nodup_cons, List.mem_cons] at hnd
    by_cases hq : q.1 = a
    · by_cases hpq : p.1 = a
      · exact absurd (hq.trans hpq.symm) (fun hh => hnd.1 (Or.inl hh))
      · simp [lookupL, hq, hpq]
    · by_cases hp' : p.1 = a
      · simp [lookupL, hq, hp']
      · simp [lookupL, hq, hp']
  | trans h₁ _ ih₁ ih₂ =>
    rename_i l₁' l₂' l₃' _
    have hnd₂ : (keysOf l₂').Nodup := by
      have : List.Perm (keysOf l₁') (keysOf l₂') := h₁.map Prod.fst
      exact this.nodup_iff.mp hnd
    exact (ih₁ hnd).trans (ih₂ hnd₂)

/-! ## JS string helpers (on the underlying character lists) -/

/-- JS String.prototype.split with a single-character separator. -/
def splitOnCharL (sep : Char) : List Char → List (List Char)
  | [] => [[]]
  | c :: t =>
    if c = sep then [] :: splitOnCharL sep t
    else
      match splitOnCharL sep t with
      | h :: r => (c :: h) :: r
      | [] => [[c]]

/-- Whitespace for the purposes of the JS regex class backslash-s and of
String.prototype.trim (restricted to the ASCII range, which is all the
plugin ever sees). -/
def isSpaceJS (c : Char) : Bool :=
  c = ' ' || c = '\t' || c = '\n' || c = '\r' || c = '\x0b' || c = '\x0c'

/-- JS String.prototype.trim. -/
def trimL (l : List Char) : List Char :=
  ((l.dropWhile isSpaceJS).reverse.dropWhile isSpaceJS).reverse

def strOfList (l : List Char) : String := ⟨l⟩

theorem strOfList_data (l : List Char) : (strOfList l).data = l := rfl

theorem string_data_append (a b : String) : (a ++ b).data = a.data ++ b.data := by
  cases a; cases b; rfl

theorem string_mk_data (s : String) : strOfList s.data = s := by
  cases s; rfl

/-- JS Array.prototype.join with separator string. -/
def joinSep (sep : String) : List String → String
  | [] => ""
  | [x] => x
  | x :: r => x ++ sep ++ joinSep sep r

/-- JS startsWith. -/
def strStartsWith (s pre : String) : Bool := pre.data.isPrefixOf s.data

/-- JS slice from an index to the end. -/
def strDrop (s : String) (n : Nat) : String := strOfList (s.data.drop n)

def strLen (s : String) : Nat := s.data.length

/-- JS endsWith(".js"). -/
def endsWithJs (s : String) : Bool := s.data.reverse.take 3 == ['s', 'j', '.']

/-! ## List helper lemmas (append indexing) -/

theorem take_len_append {α : Type} (a b : List α) : (a ++ b).take a.length = a := by
  induction a with
  | nil => simp
  | cons x t ih => simp [ih]

theorem drop_len_append {α : Type} (a b : List α) : (a ++ b).drop a.length = b := by
  induction a with
  | nil => simp
  | cons x t ih => simp [ih]

theorem drop_len_add_append {α : Type} (a b : List α) (k : Nat) :
    (a ++ b).drop (a.length + k) = b.drop k := by
  induction a with
  | nil => simp
  | cons x t ih => simp [Nat.succ_add, ih]

theorem get?_len_add_append {α : Type} (a b : List α) (k : Nat) :
    (a ++ b).get? (a.length + k) = b.get? k := by
  induction a with
  | nil => simp
  | cons x t ih =>
    simp only [List.get?_eq_getElem?] at ih
    simp [Nat.succ_add, ih]

theorem getLast?_append_singleton {α : Type} (a : List α) (x : α) :
    (a ++ [x]).getLast? = some x := by
  induction a with
  | nil => rfl
  | cons y t ih =>
    rw [List.cons_append, List.getLast?_cons]
    simp only [ih]
    cases t <;> simp_all [List.getLast?_cons]

theorem dropLast_append_singleton {α : Type} (a : List α) (x : α) :
    (a ++ [x]).dropLast = a := by
  induction a with
  | nil => rfl
  | cons y t ih =>
    cases t with
    | nil => rfl
    | cons z t' => simpa using ih

theorem takeWhile_all_eq {α : Type} {p : α → Bool} {l : List α}
    (h : ∀ x ∈ l, p x = true) : l.takeWhile p = l := by
  induction l with
  | nil => rfl
  | cons x t ih =>
    have hx := h x (List.mem_cons_self x t)
    have ht := ih (fun y hy => h y (List.mem_cons_of_mem _ hy))
    simp [List.takeWhile_cons, hx, ht]

theorem takeWhile_append_stop {α : Type} {p : α → Bool} {a : List α} {b : α} (l : List α)
    (ha : ∀ x ∈ a, p x = true) (hb : p b = false) :
    (a ++ b :: l).takeWhile p = a := by
  induction a with
  | nil => simp [List.takeWhile_cons, hb]
  | cons x t ih =>
    have hx := ha x (List.mem_cons_self x t)
    have ht := ih (fun y hy => ha y (List.mem_cons_of_mem _ hy))
    simp [List.takeWhile_cons, hx, ht]

theorem dropWhile_all_neg {α : Type} {p : α → Bool} {l : List α}
    (h : ∀ x ∈ l, p x = false) : l.dropWhile p = l := by
  cases l with
  | nil => rfl
  | cons x t => rw [List.dropWhile_cons, h x (List.mem_cons_self x t)]; simp

/-! ## The type-expression regex

The type rewriter in modifyDoclet matches each type string against the
JS regex  ([backslash-w backslash-s comma]+)(?:.<(.*)>)?$  (written here
in words: group 1 is one or more word/space/comma characters, then an
optional group of any character, a literal angle-open after a dot-any,
a greedy group 2, a literal angle-close, anchored at the END of the
string only).  jsMatch below reproduces the leftmost-match,
greedy-with-backtracking semantics of the JS engine for exactly this
pattern, returning the two capture groups. -/

/-- The character class of group 1: word characters, whitespace, comma. -/
def inClass (c : Char) : Bool :=
  c.isAlpha || c.isDigit || c = '_' || isSpaceJS c || c = ','

def isWordChar (c : Char) : Bool := c.isAlpha || c.isDigit || c = '_'

/-- The JS dot matches everything except line terminators. -/
def notLineTerm (c : Char) : Bool := !(c = '\n' || c = '\r')

/-- Can the optional generic group start right after position q
(group 1 being s[0..q))?  Requires: the dot consumes s[q] (not a line
terminator), an angle-open at q+1, and group 2 (s[q+2..n-1)) free of
line terminators; the closing angle / end anchor are checked by the
caller via the last character. -/
def qOk (s : List Char) (q : Nat) : Bool :=
  (s.get? (q + 1) == some '<') &&
    (match s.get? q with
     | some c => notLineTerm c
     | none => false) &&
    ((s.drop (q + 2)).dropLast).all notLineTerm

/-- Scan q from the given start downwards (the engine backtracks the
greedy group 1 from its longest extent), returning the first q ≥ 1 at
which the optional group can match. -/
def findQ (s : List Char) : Nat → Option Nat
  | 0 => none
  | q + 1 => if qOk s (q + 1) then some (q + 1) else findQ s q

/-- Anchored match attempt at the current position: group 1 must start
here.  Returns (group 1, optional group 2). -/
def matchAt (s : List Char) : Option (List Char × Option (List Char)) :=
  let n := s.length
  let m := (s.takeWhile inClass).length
  if m = 0 then none
  else if m = n then some (s, none)
  else if s.getLast? = some '>' then
    match findQ s (min m (n - 3)) with
    | some q => some (s.take q, some ((s.drop (q + 2)).dropLast))
    | none => none
  else none

/-- Leftmost match of the type-expression regex: try each start
position from the left, as String.prototype.match does. -/
def jsMatch : List Char → Option (List Char × Option (List Char))
  | [] => none
  | c :: rest =>
    match matchAt (c :: rest) with
    | some r => some r
    | none => jsMatch rest

/-! ## Path handling

The Node path module is an external collaborator of the plugin.
Modelled from the spec: the referenced file path is resolved relative
to the directory containing the current file and normalized; the model
below implements resolve/dirname by segment normalization, assuming
absolute directory inputs (which the host always supplies). -/

def normSegs (segs : List (List Char)) : List (List Char) :=
  segs.foldl
    (fun acc seg =>
      if seg = [] ∨ seg = ['.'] then acc
      else if seg = ['.', '.'] then acc.dropLast
      else acc ++ [seg]) []

def joinSlashAbs (segs : List (List Char)) : String :=
  if segs = [] then "/" else strOfList ((segs.map (fun s => '/' :: s)).flatten)

def pathResolve (dir rel : String) : String :=
  let full := if rel.data.head? = some '/' then rel.data
              else dir.data ++ '/' :: rel.data
  joinSlashAbs (normSegs (splitOnCharL '/' full))

def pathDirname (s : String) : String :=
  joinSlashAbs ((normSegs (splitOnCharL '/' s.data)).dropLast)

/-- withExt helper of the plugin: append the default source extension
when missing. -/
def withExt (file : String) : String :=
  if endsWithJs file then file else file ++ ".js"

/-! ## Data model -/

/-- Resolution slot of a local import alias: the JS code stores the
request pair [file, exported] at extraction time, then resolveImports
overwrites it with the resolved longname string, or with null on
failure. -/
inductive AliasSlot where
  | req (file exported : String)
  | res (longname : String)
  | fail
  deriving DecidableEq, Repr

structure CodeRec where
  type : String
  name : String
  value : String
  deriving DecidableEq, Repr

structure MetaRec where
  path : String
  filename : String
  lineno : Nat
  code : CodeRec
  deriving DecidableEq, Repr

structure TypeRec where
  names : List String
  deriving DecidableEq, Repr

/-- A params/properties/returns entry: only its type field matters to
the plugin, and the type may be absent. -/
structure TypedEntry where
  type : Option TypeRec
  deriving DecidableEq, Repr

structure Doclet where
  kind : String
  name : String
  longname : String
  scope : String
  meta : Option MetaRec
  augments : Option (List String)
  properties : Option (List TypedEntry)
  params : Option (List TypedEntry)
  returns : Option (List TypedEntry)
  deriving DecidableEq, Repr

structure FileInfo where
  filename : String
  localImportAliases : List (String × AliasSlot)
  longnamesByDeclaration : List (String × String)
  mappings : List (String × String)
  exports : List (String × String)
  deriving DecidableEq, Repr

/-- The FileInfo constructor. -/
def FileInfo.empty (filename : String) : FileInfo :=
  { filename := filename, localImportAliases := [], longnamesByDeclaration := [],
    mappings := [], exports := [] }

/-- The module-level fileinfoByFile Map, threaded explicitly. -/
abbrev Registry := List (String × FileInfo)

/-- getFileInfo: registry lookup with optional create-if-absent. -/
def getFileInfo (reg : Registry) (filename : String) (getNew : Bool) :
    Option FileInfo × Registry :=
  match lookupL reg filename with
  | some fileinfo => (some fileinfo, reg)
  | none =>
    if getNew then
      let fileinfo := FileInfo.empty filename
      (some fileinfo, reg ++ [(filename, fileinfo)])
    else (none, reg)

/-- Create-if-absent access followed by in-place mutation of the
retrieved FileInfo: the pattern every event handler uses. -/
def mapUpsert (reg : Registry) (k : String) (f : FileInfo → FileInfo) : Registry :=
  match getFileInfo reg k true with
  | (some fileinfo, reg') => mapSet reg' k (f fileinfo)
  | (none, reg') => reg'

/-! ## beforeParse: the three extraction idioms

Regex matching over the raw source is performed by the JS engine (an
external collaborator); a SourceText abstracts a file's raw source to
the capture groups of the three regex match lists, and the extraction
loops below are the translated plugin logic.  The removal of matched
typedef comments from e.source only affects the host parser and is not
modelled. -/

/-- One match of the typedef-import regex: capture 1 is the required
path, capture 2 the dotted export tail (with its leading dot, possibly
empty), capture 3 the bound local name. -/
structure TypedefMatch where
  path : String
  dotted : String
  localName : String
  deriving DecidableEq, Repr

/-- One match of the simple const NAME = require(PATH)TAIL regex. -/
structure RequireMatch where
  name : String
  path : String
  dotted : String
  deriving DecidableEq, Repr

/-- One match of the destructuring const-braces regex: capture 1 is
the raw text between the braces. -/
structure DestructMatch where
  namesRaw : String
  path : String
  dotted : String
  deriving DecidableEq, Repr

structure SourceText where
  typedefs : List TypedefMatch
  simples : List RequireMatch
  destructs : List DestructMatch
  deriving DecidableEq, Repr

def typedefImportAliases (reg : Registry) (filename : String) (src : SourceText) :
    Registry :=
  if src.typedefs.isEmpty then reg
  else
    mapUpsert reg filename (fun fileinfo =>
      let updated :=
        src.typedefs.foldl
          (fun m matched =>
            let file := withExt (pathResolve (pathDirname filename) matched.path)
            let exported := strDrop matched.dotted 1
            mapSet m matched.localName (AliasSlot.req file exported))
          fileinfo.localImportAliases
      { fileinfo with localImportAliases := updated })

def constSimpleRequireAliases (reg : Registry) (filename : String) (src : SourceText) :
    Registry :=
  if src.simples.isEmpty then reg
  else
    mapUpsert reg filename (fun fileinfo =>
      let updated :=
        src.simples.foldl
          (fun m matched =>
            let file := withExt (pathResolve (pathDirname filename) matched.path)
            let exported := strDrop matched.dotted 1
            mapSet m matched.name (AliasSlot.req file exported))
          fileinfo.localImportAliases
      { fileinfo with localImportAliases := updated })

def constDestructRequireAliases (reg : Registry) (filename : String) (src : SourceText) :
    Registry :=
  if src.destructs.isEmpty then reg
  else
    mapUpsert reg filename (fun fileinfo =>
      let updated :=
        src.destructs.foldl
          (fun m matched =>
            let file := withExt (pathResolve (pathDirname filename) matched.path)
            let exported := strDrop matched.dotted 1
            let exportedNames :=
              (splitOnCharL ',' matched.namesRaw.data).map
                (fun nm => strOfList (trimL nm))
            exportedNames.foldl
              (fun m2 nm =>
                let fullexport := if exported = "" then nm else exported ++ "." ++ nm
                mapSet m2 nm (AliasSlot.req file fullexport))
              m)
          fileinfo.localImportAliases
      { fileinfo with localImportAliases := updated })

def beforeParse (reg : Registry) (filename : String) (src : SourceText) : Registry :=
  constDestructRequireAliases
    (constSimpleRequireAliases (typedefImportAliases reg filename src) filename src)
    filename src

/-! ## newDoclet: declaration indexing -/

def indexLongnames (fileinfo : FileInfo) (doclet : Doclet) (code : CodeRec) : FileInfo :=
  if doclet.kind ≠ "class" ∧ doclet.kind ≠ "function" then fileinfo
  else
    let codename := code.name
    if doclet.name ≠ doclet.longname then
      let updated :=
        mapSet (mapSet fileinfo.longnamesByDeclaration codename doclet.longname)
          doclet.name doclet.longname
      { fileinfo with longnamesByDeclaration := updated }
    else fileinfo

def indexMappings (fileinfo : FileInfo) (doclet : Doclet) (code : CodeRec) : FileInfo :=
  if doclet.kind = "class" ∨ doclet.kind = "function" then fileinfo
  else if code.type ≠ "Identifier" then fileinfo
  else { fileinfo with mappings := mapSet fileinfo.mappings code.name code.value }

def newDoclet (reg : Registry) (doclet : Doclet) : Registry :=
  match doclet.meta with
  | none => reg
  | some m =>
    if doclet.scope ≠ "global" ∧ doclet.scope ≠ "static" then reg
    else
      mapUpsert reg (pathResolve m.path m.filename)
        (fun fileinfo => indexMappings (indexLongnames fileinfo doclet m.code) doclet m.code)

/-! ## indexExports -/

/-- JS truthiness of an optional string: undefined (none) and the
empty string are falsy. -/
def jsTruthy : Option String → Option String
  | none => none
  | some s => if s = "" then none else some s

/-- Body of the third loop of indexExports, acting on one assignment
entry.  (The JS guard on non-string keys is vacuous here: all model
keys are strings.) -/
def exportStep (longnames : List (String × String)) (exportsAlias : String)
    (acc : List (String × String)) (kv : String × String) : List (String × String) :=
  if strStartsWith kv.1 (exportsAlias ++ ".") then
    match jsTruthy (lookupL longnames kv.2) with
    | some longname => mapSet acc (strDrop kv.1 (strLen exportsAlias + 1)) longname
    | none => acc
  else acc

def indexExports (fileinfo : FileInfo) : FileInfo :=
  let step1 :=
    match lookupL fileinfo.mappings "module.exports" with
    | some moduleExports =>
      let exp :=
        match jsTruthy (lookupL fileinfo.longnamesByDeclaration moduleExports) with
        | some longname => mapSet fileinfo.exports "*" longname
        | none => fileinfo.exports
      (moduleExports, exp)
    | none => ("exports", fileinfo.exports)
  let exportsAlias :=
    fileinfo.mappings.foldl (fun a kv => if kv.2 = "exports" then kv.1 else a) step1.1
  let exps :=
    fileinfo.mappings.foldl
      (exportStep fileinfo.longnamesByDeclaration exportsAlias) step1.2
  { fileinfo with exports := exps }

/-! ## resolveImports -/

/-- Body of the resolveImports loop for one alias entry.  When the
loop runs (after the barrier) every slot is still a request; slots
that are not requests are left unchanged. -/
def resolveEntry (reg : Registry) (nr : String × AliasSlot) : String × AliasSlot :=
  match nr.2 with
  | AliasSlot.req file exported =>
    (nr.1,
      match (getFileInfo reg file false).1 with
      | none => AliasSlot.fail
      | some importFrom =>
        let importName := if exported = "" then "*" else exported
        match jsTruthy (lookupL importFrom.exports importName) with
        | none => AliasSlot.fail
        | some longname => AliasSlot.res longname)
  | s => (nr.1, s)

/-- resolveImports: finalize every alias slot of one file. -/
def resolveImports (reg : Registry) (fileinfo : FileInfo) : FileInfo :=
  if fileinfo.localImportAliases.isEmpty then fileinfo
  else
    { fileinfo with localImportAliases :=
        fileinfo.localImportAliases.map (resolveEntry reg) }

/-! ## The type rewriter (replaceTypes closure of modifyDoclet) -/

def parseError (metaFilename : String) (lineno : Nat) : String :=
  "Error parsing " ++ metaFilename ++ ":" ++ Nat.repr lineno ++ "."

/-- The value an alias slot contributes when placed into the rewritten
name array: a resolved longname stands for itself, a null (failed)
slot is turned into the empty string by the subsequent join, and a
leftover request array would go through the JS array-to-string
coercion. -/
def AliasSlot.joinValue : AliasSlot → Option String
  | AliasSlot.res longname => some longname
  | AliasSlot.fail => none
  | AliasSlot.req file exported => some (file ++ "," ++ exported)

/-- One entry of the rewritten name list: local declared names take
precedence, then aliases, otherwise the name stands unchanged (the
body of the map inside replaceTypes). -/
def substName (localNames : List (String × String))
    (aliases : List (String × AliasSlot)) (t : String) : Option String :=
  match lookupL localNames t with
  | some longname => some longname
  | none =>
    match lookupL aliases t with
    | some slot => slot.joinValue
    | none => some t

/-- Array.prototype.join with separator comma-space, coercing null
elements to the empty string as JS does. -/
def joinComma (l : List (Option String)) : String :=
  joinSep ", " (l.map (fun o => o.getD ""))

/-- The recursive type-expression rewriter, with explicit fuel for the
recursion into the generic argument; fuel at least the length of the
string is always enough (see replaceTypesF_fuel).  The JS throw on a
failed match is modelled as Except.error.  The falsiness test on the
captured generic argument treats an absent capture and the empty
capture alike: both return the joined base names without recursing, so
the recursion only ever descends into a nonempty capture. -/
def replaceTypesF (localNames : List (String × String))
    (aliases : List (String × AliasSlot)) (metaFilename : String) (lineno : Nat) :
    Nat → String → Except String String
  | 0, _ => Except.error (parseError metaFilename lineno)
  | fuel + 1, name =>
    match jsMatch name.data with
    | none => Except.error (parseError metaFilename lineno)
    | some (g1, extra) =>
      let actual := (splitOnCharL ',' g1).map (fun t => strOfList (trimL t))
      let mapped := actual.map (fun t => substName localNames aliases t)
      let joined := joinComma mapped
      match extra with
      | none => Except.ok joined
      | some [] => Except.ok joined
      | some (c :: e) =>
        match replaceTypesF localNames aliases metaFilename lineno fuel
            (strOfList (c :: e)) with
        | Except.error msg => Except.error msg
        | Except.ok r => Except.ok (joined ++ ".<" ++ r ++ ">")

def replaceTypes (localNames : List (String × String))
    (aliases : List (String × AliasSlot)) (metaFilename : String) (lineno : Nat)
    (name : String) : Except String String :=
  replaceTypesF localNames aliases metaFilename lineno name.data.length name

/-- replaceAllTypes: rewrite every name of one type record (absent
type records are left alone). -/
def replaceAllTypes (localNames : List (String × String))
    (aliases : List (String × AliasSlot)) (metaFilename : String) (lineno : Nat) :
    Option TypeRec → Except String (Option TypeRec)
  | none => Except.ok none
  | some t =>
    (t.names.mapM (replaceTypes localNames aliases metaFilename lineno)).map
      (fun ns => some ⟨ns⟩)

def replaceEntries (localNames : List (String × String))
    (aliases : List (String × AliasSlot)) (metaFilename : String) (lineno : Nat)
    (l : List TypedEntry) : Except String (List TypedEntry) :=
  l.mapM (fun entry =>
    (replaceAllTypes localNames aliases metaFilename lineno entry.type).map
      (fun t => ⟨t⟩))

/-- modifyDoclet: reinject resolved types into one declaration record.
JS mutates the record in place and a thrown parse error aborts the
whole run; here the updated record is returned in Except. -/
def modifyDoclet (reg : Registry) (doclet : Doclet) : Except String Doclet :=
  match doclet.meta with
  | none => Except.ok doclet
  | some m =>
    let filename := pathResolve m.path m.filename
    match (getFileInfo reg filename false).1 with
    | none => Except.ok doclet
    | some fileinfo =>
      let aliases := fileinfo.localImportAliases
      let localNames := fileinfo.longnamesByDeclaration
      do
        let augments ←
          match doclet.augments with
          | none => pure none
          | some l =>
            (l.mapM (replaceTypes localNames aliases m.filename m.lineno)).map some
        let properties ←
          match doclet.properties with
          | none => pure none
          | some l => (replaceEntries localNames aliases m.filename m.lineno l).map some
        let params ←
          match doclet.params with
          | none => pure none
          | some l => (replaceEntries localNames aliases m.filename m.lineno l).map some
        let returns ←
          match doclet.returns with
          | none => pure none
          | some l => (replaceEntries localNames aliases m.filename m.lineno l).map some
        pure { doclet with augments := augments, properties := properties,
                           params := params, returns := returns }

/-! ## processingComplete: the resolution barrier -/

/-- Replace the value at an existing key in place (the mutation of an
object just retrieved from the registry). -/
def mapAdjust {β : Type} : List (String × β) → String → (β → β) → List (String × β)
  | [], _, _ => []
  | (k', v) :: t, k, f => if k' = k then (k, f v) :: t else (k', v) :: mapAdjust t k f

/-- First loop of processingComplete: indexExports touches only the
file record itself, so iterating the values is a map. -/
def indexExportsPhase (reg : Registry) : Registry :=
  reg.map (fun kv => (kv.1, indexExports kv.2))

/-- Second loop of processingComplete: resolveImports is applied to
each registry value in iteration order, each step reading the registry
as it currently stands (it only reads exports tables, which the loop
never changes). -/
def resolveLoop : List String → Registry → Registry
  | [], reg => reg
  | k :: ks, reg =>
    resolveLoop ks (mapAdjust reg k (fun fileinfo => resolveImports reg fileinfo))

def resolveBarrier (reg : Registry) : Registry :=
  let reg2 := indexExportsPhase reg
  resolveLoop (keysOf reg2) reg2

def processingComplete (reg : Registry) (doclets : List Doclet) :
    Except String (Registry × List Doclet) :=
  let reg3 := resolveBarrier reg
  (doclets.mapM (modifyDoclet reg3)).map (fun ds => (reg3, ds))

/-! ## The full event pipeline -/

/-- The per-file input the host delivers: one beforeParse event with
the raw source, then one newDoclet event per declaration produced from
that file. -/
structure FileInput where
  filename : String
  src : SourceText
  doclets : List Doclet
  deriving DecidableEq, Repr

def processFileInput (reg : Registry) (inp : FileInput) : Registry :=
  inp.doclets.foldl newDoclet (beforeParse reg inp.filename inp.src)

def buildReg (inputs : List FileInput) : Registry :=
  inputs.foldl processFileInput []

def runPipeline (inputs : List FileInput) : Except String (Registry × List Doclet) :=
  processingComplete (buildReg inputs) (inputs.map FileInput.doclets).flatten

/-! ## Shape predicates for the rewriter -/

/-- Does the recursive rewrite succeed?  True iff the regex finds a
(possibly trailing) match at every generic-nesting level, where the
nesting descends only into a nonempty captured generic argument (an
absent or empty capture ends the recursion); this mirrors the
recursion of replaceTypes, falsiness test included. -/
def codeShapeF : Nat → List Char → Bool
  | 0, _ => false
  | fuel + 1, l =>
    match jsMatch l with
    | none => false
    | some (_, none) => true
    | some (_, some []) => true
    | some (_, some (c :: e)) => codeShapeF fuel (c :: e)

def codeShape (l : List Char) : Bool := codeShapeF l.length l

/-- A nonempty run of word/whitespace/comma characters: the base
name-list of the documented type-expression shape. -/
def nameListShape (l : List Char) : Bool := !l.isEmpty && l.all inClass

/-- Modelled from the spec: the declarative name-list-with-optional-
generic-argument shape of section 4.5 step 1, anchored at both ends:
either the whole string is a name list, or it decomposes as a name
list, a dot, an angle-open, a generic argument again of this shape,
and a closing angle at the very end. -/
def specShapeF : Nat → List Char → Bool
  | 0, l => nameListShape l
  | fuel + 1, l =>
    nameListShape l ||
      (List.range l.length).any (fun i =>
        decide (0 < i) && (l.take i).all inClass &&
        (l.get? i == some '.') && (l.get? (i + 1) == some '<') &&
        (l.getLast? == some '>') && decide (i + 3 ≤ l.length) &&
        specShapeF fuel ((l.drop (i + 2)).dropLast))

def specTypeShape (l : List Char) : Bool := specShapeF l.length l

/-! ## Character-class facts -/

theorem inClass_of_word {c : Char} (h : isWordChar c = true) : inClass c = true := by
  simp only [isWordChar, inClass, Bool.or_eq_true] at h ⊢
  tauto

theorem word_not_lineTerm {c : Char} (h : isWordChar c = true) : notLineTerm c = true := by
  by_cases h1 : c = '\n'
  · subst h1; exact absurd h (by decide)
  · by_cases h2 : c = '\r'
    · subst h2; exact absurd h (by decide)
    · simp [notLineTerm, h1, h2]

theorem word_not_comma {c : Char} (h : isWordChar c = true) : c ≠ ',' := by
  intro hc; subst hc; exact absurd h (by decide)

theorem word_not_space {c : Char} (h : isWordChar c = true) : isSpaceJS c = false := by
  by_cases h1 : c = ' '
  · subst h1; exact absurd h (by decide)
  by_cases h2 : c = '\t'
  · subst h2; exact absurd h (by decide)
  by_cases h3 : c = '\n'
  · subst h3; exact absurd h (by decide)
  by_cases h4 : c = '\r'
  · subst h4; exact absurd h (by decide)
  by_cases h5 : c = '\x0b'
  · subst h5; exact absurd h (by decide)
  by_cases h6 : c = '\x0c'
  · subst h6; exact absurd h (by decide)
  simp [isSpaceJS, h1, h2, h3, h4, h5, h6]

/-! ## Basic facts about the regex model -/

theorem matchAt_extra_lt {l g e : List Char} (h : matchAt l = some (g, some e)) :
    e.length < l.length := by
  have hl : l ≠ [] := by
    intro hnil
    subst hnil
    simp [matchAt] at h
  have hpos : 0 < l.length := List.length_pos.mpr hl
  unfold matchAt at h
  simp only [] at h
  by_cases h0 : (l.takeWhile inClass).length = 0
  · simp [h0] at h
  · rw [if_neg h0] at h
    by_cases h1 : (l.takeWhile inClass).length = l.length
    · rw [if_pos h1] at h
      simp at h
    · rw [if_neg h1] at h
      by_cases h2 : l.getLast? = some '>'
      · rw [if_pos h2] at h
        cases hq : findQ l (min (l.takeWhile inClass).length (l.length - 3)) with
        | none => rw [hq] at h; simp at h
        | some q =>
          rw [hq] at h
          simp only [Option.some.injEq, Prod.mk.injEq] at h
          have he : e = (l.drop (q + 2)).dropLast := by
            have := h.2
            simpa using this.symm
          subst he
          rw [List.length_dropLast, List.length_drop]
          have : l.length - (q + 2) - 1 = l.length - (q + 3) := by omega
          rw [this]
          exact Nat.sub_lt hpos (by omega)
      · rw [if_neg h2] at h
        simp at h

theorem jsMatch_extra_lt : ∀ {l g e : List Char}, jsMatch l = some (g, some e) →
    e.length < l.length := by
  intro l
  induction l with
  | nil => intro g e h; simp [jsMatch] at h
  | cons c rest ih =>
    intro g e h
    rw [jsMatch] at h
    cases hm : matchAt (c :: rest) with
    | some r =>
      rw [hm] at h
      cases h
      exact matchAt_extra_lt hm
    | none =>
      rw [hm] at h
      exact Nat.lt_trans (ih h) (by simp)

theorem jsMatch_nil : jsMatch [] = none := rfl

theorem jsMatch_ne_nil {l g : List Char} {e : Option (List Char)}
    (h : jsMatch l = some (g, e)) : l ≠ [] := by
  intro hnil; subst hnil; simp [jsMatch] at h

/-! ## Fuel adequacy for the rewriter -/

theorem replaceTypesF_fuel (localNames : List (String × String))
    (aliases : List (String × AliasSlot)) (metaFilename : String) (lineno : Nat) :
    ∀ (f₁ : Nat) (f₂ : Nat) (name : String), name.data.length ≤ f₁ →
      name.data.length ≤ f₂ →
      replaceTypesF localNames aliases metaFilename lineno f₁ name =
        replaceTypesF localNames aliases metaFilename lineno f₂ name := by
  intro f₁
  induction f₁ with
  | zero =>
    intro f₂ name h₁ h₂
    have hdat : name.data = [] := List.eq_nil_of_length_eq_zero (Nat.le_zero.mp h₁)
    cases f₂ with
    | zero => rfl
    | succ k =>
      simp only [replaceTypesF, hdat, jsMatch_nil]
  | succ g ih =>
    intro f₂ name h₁ h₂
    cases f₂ with
    | zero =>
      have hdat : name.data = [] := List.eq_nil_of_length_eq_zero (Nat.le_zero.mp h₂)
      simp only [replaceTypesF, hdat, jsMatch_nil]
    | succ k =>
      simp only [replaceTypesF]
      cases hm : jsMatch name.data with
      | none => rfl
      | some r =>
        obtain ⟨g1, extra⟩ := r
        cases extra with
        | none => rfl
        | some e =>
          cases e with
          | nil => rfl
          | cons c e' =>
            have helt : (c :: e').length < name.data.length := jsMatch_extra_lt hm
            have he₁ : (strOfList (c :: e')).data.length ≤ g := by
              rw [strOfList_data]; omega
            have he₂ : (strOfList (c :: e')).data.length ≤ k := by
              rw [strOfList_data]; omega
            have hrec := ih k (strOfList (c :: e')) he₁ he₂
            simp only [hrec]

/-- One unfolding step of replaceTypes, independent of the fuel
bookkeeping. -/
theorem replaceTypes_step (localNames : List (String × String))
    (aliases : List (String × AliasSlot)) (metaFilename : String) (lineno : Nat)
    (name : String) :
    replaceTypes localNames aliases metaFilename lineno name =
      match jsMatch name.data with
      | none => Except.error (parseError metaFilename lineno)
      | some (g1, none) =>
        Except.ok (joinComma (((splitOnCharL ',' g1).map
          (fun t => strOfList (trimL t))).map (substName localNames aliases)))
      | some (g1, some []) =>
        Except.ok (joinComma (((splitOnCharL ',' g1).map
          (fun t => strOfList (trimL t))).map (substName localNames aliases)))
      | some (g1, some (c :: e)) =>
        match replaceTypes localNames aliases metaFilename lineno
            (strOfList (c :: e)) with
        | Except.error msg => Except.error msg
        | Except.ok r =>
          Except.ok (joinComma (((splitOnCharL ',' g1).map
            (fun t => strOfList (trimL t))).map (substName localNames aliases)) ++
            ".<" ++ r ++ ">") := by
  unfold replaceTypes
  cases hl : name.data.length with
  | zero =>
    have hdat : name.data = [] := List.eq_nil_of_length_eq_zero hl
    simp only [replaceTypesF, hdat, jsMatch_nil]
  | succ k =>
    simp only [replaceTypesF]
    cases hm : jsMatch name.data with
    | none => rfl
    | some r =>
      obtain ⟨g1, extra⟩ := r
      cases extra with
      | none => simp [List.map_map]
      | some e =>
        cases e with
        | nil => simp [List.map_map]
        | cons c e' =>
          have helt : (c :: e').length < name.data.length := jsMatch_extra_lt hm
          have hrec := replaceTypesF_fuel localNames aliases metaFilename lineno k
            (strOfList (c :: e')).data.length (strOfList (c :: e'))
            (by rw [strOfList_data]; omega) (le_refl _)
          simp only [hrec]
          rfl

/-! ## Fuel adequacy for codeShape -/

theorem codeShapeF_fuel : ∀ (f₁ f₂ : Nat) (l : List Char), l.length ≤ f₁ →
    l.length ≤ f₂ → codeShapeF f₁ l = codeShapeF f₂ l := by
  intro f₁
  induction f₁ with
  | zero =>
    intro f₂ l h₁ h₂
    have hdat : l = [] := List.eq_nil_of_length_eq_zero (Nat.le_zero.mp h₁)
    cases f₂ with
    | zero => rfl
    | succ k => simp only [codeShapeF, hdat, jsMatch_nil]
  | succ g ih =>
    intro f₂ l h₁ h₂
    cases f₂ with
    | zero =>
      have hdat : l = [] := List.eq_nil_of_length_eq_zero (Nat.le_zero.mp h₂)
      simp only [codeShapeF, hdat, jsMatch_nil]
    | succ k =>
      simp only [codeShapeF]
      cases hm : jsMatch l with
      | none => rfl
      | some r =>
        obtain ⟨g1, extra⟩ := r
        cases extra with
        | none => rfl
        | some e =>
          cases e with
          | nil => rfl
          | cons c e' =>
            have helt : (c :: e').length < l.length := jsMatch_extra_lt hm
            exact ih k (c :: e') (by omega) (by omega)

theorem codeShape_step (l : List Char) :
    codeShape l =
      match jsMatch l with
      | none => false
      | some (_, none) => true
      | some (_, some []) => true
      | some (_, some (c :: e)) => codeShape (c :: e) := by
  unfold codeShape
  cases hl : l.length with
  | zero =>
    have hdat : l = [] := List.eq_nil_of_length_eq_zero hl
    simp only [codeShapeF, hdat, jsMatch_nil]
  | succ k =>
    simp only [codeShapeF]
    cases hm : jsMatch l with
    | none => rfl
    | some r =>
      obtain ⟨g1, extra⟩ := r
      cases extra with
      | none => rfl
      | some e =>
        cases e with
        | nil => rfl
        | cons c e' =>
          have helt : (c :: e').length < l.length := jsMatch_extra_lt hm
          exact codeShapeF_fuel k (c :: e').length (c :: e') (by omega) (le_refl _)

/-! ## Structure of matches on well-formed inputs -/

theorem matchAt_all_class {l : List Char} (hne : l ≠ [])
    (h : ∀ c ∈ l, inClass c = true) : matchAt l = some (l, none) := by
  have ht : l.takeWhile inClass = l := takeWhile_all_eq h
  have hlen : l.length ≠ 0 := by simpa [List.length_eq_zero] using hne
  simp [matchAt, ht, hlen]

theorem jsMatch_all_class {l : List Char} (hne : l ≠ [])
    (h : ∀ c ∈ l, inClass c = true) : jsMatch l = some (l, none) := by
  cases l with
  | nil => exact absurd rfl hne
  | cons c rest =>
    have hm := matchAt_all_class hne h
    rw [jsMatch, hm]

/-- On a string of the exact form base, dot, angle-open, generic,
angle-close (base nonempty and made of word characters, the generic
free of line terminators) the regex splits off exactly the base and
the generic argument. -/
theorem jsMatch_wrap {o t : List Char} (ho : o ≠ [])
    (how : ∀ c ∈ o, isWordChar c = true)
    (hnt : ∀ c ∈ t, notLineTerm c = true) :
    jsMatch (o ++ '.' :: '<' :: (t ++ ['>'])) = some (o, some t) := by
  set l := o ++ '.' :: '<' :: (t ++ ['>']) with hl
  have hcls : ∀ c ∈ o, inClass c = true := fun c hc => inClass_of_word (how c hc)
  have htw : l.takeWhile inClass = o := takeWhile_append_stop _ hcls (by decide)
  have hlen : l.length = o.length + (t.length + 3) := by
    simp [hl, List.length_append]
  have hm0 : ¬ (l.takeWhile inClass).length = 0 := by
    rw [htw]; simpa [List.length_eq_zero] using ho
  have hmn : ¬ (l.takeWhile inClass).length = l.length := by
    rw [htw, hlen]; omega
  have hlast : l.getLast? = some '>' := by
    have hsplit : l = (o ++ '.' :: '<' :: t) ++ ['>'] := by simp [hl]
    rw [hsplit, getLast?_append_singleton]
  have hmin : min (l.takeWhile inClass).length (l.length - 3) = o.length := by
    rw [htw, hlen]; omega
  have hget1 : l.get? (o.length + 1) = some '<' := by
    rw [hl]
    have h := get?_len_add_append o ('.' :: '<' :: (t ++ ['>'])) 1
    simpa using h
  have hget0 : l.get? o.length = some '.' := by
    rw [hl]
    have h := get?_len_add_append o ('.' :: '<' :: (t ++ ['>'])) 0
    simpa using h
  have hdrop : l.drop (o.length + 2) = t ++ ['>'] := by
    rw [hl]
    simp
  have hqok : qOk l o.length = true := by
    unfold qOk
    rw [hget1, hget0, hdrop, dropLast_append_singleton]
    have hta : t.all notLineTerm = true := List.all_eq_true.mpr hnt
    simp [hta, notLineTerm]
  have hfind : findQ l (min (l.takeWhile inClass).length (l.length - 3)) =
      some o.length := by
    rw [hmin]
    cases hno : o.length with
    | zero => exact absurd (List.eq_nil_of_length_eq_zero hno) ho
    | succ q' =>
      have hq : qOk l (q' + 1) = true := by rw [← hno]; exact hqok
      rw [findQ, hq]
      simp
  have htake : l.take o.length = o := by
    rw [hl]; exact take_len_append o _
  have hmatch : matchAt l = some (o, some t) := by
    unfold matchAt
    rw [if_neg hm0, if_neg hmn, if_pos hlast, hfind]
    simp only [htake, hdrop, dropLast_append_singleton]
  have hnel : l ≠ [] := by
    rw [hl]
    intro hc
    exact absurd (List.append_eq_nil.mp hc).2 (by simp)
  cases hE : l with
  | nil => exact absurd hE hnel
  | cons c rest =>
    rw [hE] at hmatch
    rw [jsMatch, hmatch]

/-! ## Split and trim on well-formed names -/

theorem splitOnCharL_no_sep {sep : Char} {l : List Char}
    (h : ∀ c ∈ l, c ≠ sep) : splitOnCharL sep l = [l] := by
  induction l with
  | nil => rfl
  | cons c tl ih =>
    have hc : ¬ c = sep := h c (List.mem_cons_self c tl)
    rw [splitOnCharL, if_neg hc, ih (fun x hx => h x (List.mem_cons_of_mem _ hx))]

theorem trimL_no_space {l : List Char} (h : ∀ c ∈ l, isSpaceJS c = false) :
    trimL l = l := by
  unfold trimL
  rw [dropWhile_all_neg h]
  rw [dropWhile_all_neg (fun c hc => h c (List.mem_reverse.mp hc))]
  exact List.reverse_reverse l

/-- Rewriting a type expression that is one bare word-character name:
the result is exactly the substitution of that name (with a null
substitution collapsing to the empty string). -/
theorem replaceTypes_single_word (localNames : List (String × String))
    (aliases : List (String × AliasSlot)) (metaFilename : String) (lineno : Nat)
    {s : String} (hne : s.data ≠ []) (hw : ∀ c ∈ s.data, isWordChar c = true) :
    replaceTypes localNames aliases metaFilename lineno s =
      Except.ok ((substName localNames aliases s).getD "") := by
  have hj := jsMatch_all_class hne (fun c hc => inClass_of_word (hw c hc))
  have hsplit := splitOnCharL_no_sep (fun c hc => word_not_comma (hw c hc))
  have htrim : trimL s.data = s.data :=
    trimL_no_space (fun c hc => word_not_space (hw c hc))
  rw [replaceTypes_step]
  simp only [hj, hsplit, List.map_cons, List.map_nil, htrim, string_mk_data]
  simp [joinComma, joinSep]

/-- Rewriting one generic-nesting level: the outer name (a bare word
name that neither table substitutes) is kept, and the rewrite recurses
into the generic argument, reattaching with the same bracket
notation. -/
theorem replaceTypes_wrap (localNames : List (String × String))
    (aliases : List (String × AliasSlot)) (metaFilename : String) (lineno : Nat)
    {o inner r : String} (ho : o.data ≠ [])
    (how : ∀ c ∈ o.data, isWordChar c = true)
    (hlo : lookupL localNames o = none) (hao : lookupL aliases o = none)
    (hnt : ∀ c ∈ inner.data, notLineTerm c = true)
    (hr : replaceTypes localNames aliases metaFilename lineno inner = Except.ok r) :
    replaceTypes localNames aliases metaFilename lineno (o ++ ".<" ++ inner ++ ">") =
      Except.ok (o ++ ".<" ++ r ++ ">") := by
  have hinll : inner.data ≠ [] := by
    intro hnil
    rw [replaceTypes_step, hnil] at hr
    simp only [jsMatch_nil] at hr
    cases hr
  have hdata : (o ++ ".<" ++ inner ++ ">").data =
      o.data ++ '.' :: '<' :: (inner.data ++ ['>']) := by
    have h1 : (".<" : String).data = ['.', '<'] := rfl
    have h2 : (">" : String).data = ['>'] := rfl
    simp [string_data_append, h1, h2]
  have hj := jsMatch_wrap ho how hnt
  have hsplit := splitOnCharL_no_sep (fun c hc => word_not_comma (how c hc))
  have htrim : trimL o.data = o.data :=
    trimL_no_space (fun c hc => word_not_space (how c hc))
  cases hi : inner.data with
  | nil => exact absurd hi hinll
  | cons c t =>
    have hstr : strOfList (c :: t) = inner := by
      rw [← hi]; exact string_mk_data inner
    rw [hi] at hj
    rw [replaceTypes_step, hdata, hi]
    simp only [hj, hsplit, List.map_cons, List.map_nil, htrim, string_mk_data,
      hstr, hr]
    simp [joinComma, joinSep, substName, hlo, hao, AliasSlot.joinValue]

/-- The d-fold generic nesting Outer.<...Outer.<Inner>...>. -/
def nestGeneric (o : String) : Nat → String → String
  | 0, s => s
  | d + 1, s => o ++ ".<" ++ nestGeneric o d s ++ ">"

theorem nestGeneric_notLineTerm {o s : String}
    (how : ∀ c ∈ o.data, isWordChar c = true)
    (hs : ∀ c ∈ s.data, notLineTerm c = true) :
    ∀ d, ∀ c ∈ (nestGeneric o d s).data, notLineTerm c = true := by
  intro d
  induction d with
  | zero => exact hs
  | succ d ih =>
    intro c hc
    have h1 : (".<" : String).data = ['.', '<'] := rfl
    have h2 : ((">" : String)).data = ['>'] := rfl
    simp only [nestGeneric, string_data_append, h1, h2, List.append_assoc,
      List.cons_append, List.nil_append, List.mem_append, List.mem_cons,
      List.mem_singleton, List.not_mem_nil, or_false] at hc
    rcases hc with hc | hc | hc | hc | hc
    · exact word_not_lineTerm (how c hc)
    · subst hc; decide
    · subst hc; decide
    · exact ih c hc
    · subst hc; decide

/-! ## Whole-run disjunction for the rewriter -/

theorem replaceTypes_ok_or_error (localNames : List (String × String))
    (aliases : List (String × AliasSlot)) (metaFilename : String) (lineno : Nat) :
    ∀ (n : Nat) (s : String), s.data.length ≤ n →
      (codeShape s.data = true ∧
        ∃ r, replaceTypes localNames aliases metaFilename lineno s = Except.ok r) ∨
      (codeShape s.data = false ∧
        replaceTypes localNames aliases metaFilename lineno s =
          Except.error (parseError metaFilename lineno)) := by
  intro n
  induction n with
  | zero =>
    intro s h
    have hdat : s.data = [] := List.eq_nil_of_length_eq_zero (Nat.le_zero.mp h)
    right
    constructor
    · rw [codeShape_step, hdat, jsMatch_nil]
    · rw [replaceTypes_step, hdat, jsMatch_nil]
  | succ k ih =>
    intro s h
    rw [replaceTypes_step, codeShape_step]
    cases hm : jsMatch s.data with
    | none =>
      right
      simp only [hm]
      exact ⟨trivial, trivial⟩
    | some r =>
      obtain ⟨g1, extra⟩ := r
      cases extra with
      | none =>
        left
        simp only [hm]
        exact ⟨trivial, _, rfl⟩
      | some e =>
        cases e with
        | nil =>
          left
          simp only [hm]
          exact ⟨trivial, _, rfl⟩
        | cons c e' =>
          simp only [hm]
          have helt : (c :: e').length < s.data.length := jsMatch_extra_lt hm
          have hrec := ih (strOfList (c :: e')) (by rw [strOfList_data]; omega)
          rcases hrec with ⟨hcs, r', hr'⟩ | ⟨hcs, hr'⟩
          · left
            rw [strOfList_data] at hcs
            refine ⟨hcs, ?_⟩
            rw [hr']
            exact ⟨_, rfl⟩
          · right
            rw [strOfList_data] at hcs
            refine ⟨hcs, ?_⟩
            rw [hr']

theorem map_getD_eq {l : List String} {f : String → Option String}
    (h : ∀ t ∈ l, f t = some t) : l.map (fun t => (f t).getD "") = l := by
  induction l with
  | nil => rfl
  | cons x t ih =>
    have hx := h x (List.mem_cons_self x t)
    have ht := ih (fun y hy => h y (List.mem_cons_of_mem _ hy))
    simp [hx, ht]

/-! ## Claim theorems for the type rewriter -/

/-- Claim C2, evaluated at the failing input: in a file whose alias
Foo has failed resolution (null slot) and declares nothing locally,
the rewriter turns the type expression Foo into the empty string
instead of leaving the name unchanged: the null resolution is
substituted into the name array and the join coerces it to the empty
string. -/
theorem failedAliasErased :
    replaceTypes [] [("Foo", AliasSlot.fail)] "b.js" 3 "Foo" = Except.ok "" ∧
    ("" : String) ≠ "Foo" := ⟨rfl, by decide⟩

/-- Claim C5 counterexample: the string Foo.<Bar does not have the
documented name-list-with-optional-generic shape (there is no closing
angle bracket), yet the rewriter raises no error: the pattern is
anchored only at the end of the string, so it matches the trailing
name Bar and the malformed prefix is silently dropped. -/
theorem malformedTypeNotRejected :
    specTypeShape "Foo.<Bar".data = false ∧
    replaceTypes [] [] "f.js" 1 "Foo.<Bar" = Except.ok "Bar" := ⟨rfl, rfl⟩

/-- Claim C5 (amended): the rewriter raises an error whose message
names the file and line if and only if the end-anchored regex fails to
find a trailing match at some generic-nesting level, where nesting
descends only into a nonempty captured generic argument (codeShape is
false there); the falsiness test treats an empty capture as absent, so
the recursion stops there and returns the base names, and every string
with a trailing match at every such level is rewritten without
raising. -/
theorem rewriterErrorIffNoTrailingMatch (localNames : List (String × String))
    (aliases : List (String × AliasSlot)) (metaFilename : String) (lineno : Nat)
    (s : String) :
    (replaceTypes localNames aliases metaFilename lineno s =
      Except.error (parseError metaFilename lineno)) ↔ codeShape s.data = false := by
  rcases replaceTypes_ok_or_error localNames aliases metaFilename lineno
      s.data.length s (le_refl _) with ⟨hcs, r, hr⟩ | ⟨hcs, hr⟩
  · constructor
    · intro h
      rw [h] at hr
      cases hr
    · intro h
      rw [hcs] at h
      cases h
  · exact ⟨fun _ => hcs, fun _ => hr⟩

/-- Claim C6: rewriting a nested generic type expression recursively
rewrites the inner expression and reattaches it with the same bracket
notation at every nesting level: for every depth d, when the outer
name is a bare word name that neither table substitutes and the inner
expression rewrites to r, the d-fold nesting rewrites to the d-fold
nesting of r. -/
theorem genericNestingRoundTrip (localNames : List (String × String))
    (aliases : List (String × AliasSlot)) (metaFilename : String) (lineno : Nat)
    (o s r : String) (d : Nat) (ho : o.data ≠ [])
    (how : ∀ c ∈ o.data, isWordChar c = true)
    (hlo : lookupL localNames o = none) (hao : lookupL aliases o = none)
    (hs : ∀ c ∈ s.data, notLineTerm c = true)
    (hr : replaceTypes localNames aliases metaFilename lineno s = Except.ok r) :
    replaceTypes localNames aliases metaFilename lineno (nestGeneric o d s) =
      Except.ok (nestGeneric o d r) := by
  induction d with
  | zero => exact hr
  | succ d ih =>
    exact replaceTypes_wrap localNames aliases metaFilename lineno ho how hlo hao
      (nestGeneric_notLineTerm how hs d) ih

/-- Witness for claim C6 at the instance of the spec: the expression
Array.<Array.<Foo>> with the alias Foo resolved to pkg.Foo rewrites
exactly to Array.<Array.<pkg.Foo>>. -/
theorem genericNestingRoundTrip_witness :
    nestGeneric "Array" 2 "Foo" = "Array.<Array.<Foo>>" ∧
    replaceTypes [] [("Foo", AliasSlot.res "pkg.Foo")] "b.js" 7
      (nestGeneric "Array" 2 "Foo") = Except.ok "Array.<Array.<pkg.Foo>>" := by
  constructor
  · rfl
  · have h := genericNestingRoundTrip [] [("Foo", AliasSlot.res "pkg.Foo")] "b.js" 7
      "Array" "Foo" "pkg.Foo" 2 (by decide) (by decide) rfl (by decide) (by decide) rfl
    exact h.trans (by rfl)

/-- Claim C10: the comma-separated name list of a type expression is
split on commas, each part trimmed, and rejoined with the fixed
comma-space separator, so whitespace around commas is normalized even
when no name in the list is substituted. -/
theorem commaListNormalization (localNames : List (String × String))
    (aliases : List (String × AliasSlot)) (metaFilename : String) (lineno : Nat)
    (s : String) (g1 : List Char)
    (hm : jsMatch s.data = some (g1, none))
    (hns : ∀ t ∈ (splitOnCharL ',' g1).map (fun l => strOfList (trimL l)),
      substName localNames aliases t = some t) :
    replaceTypes localNames aliases metaFilename lineno s =
      Except.ok (joinSep ", "
        ((splitOnCharL ',' g1).map (fun l => strOfList (trimL l)))) := by
  rw [replaceTypes_step]
  simp only [hm]
  have hmg : ((splitOnCharL ',' g1).map (fun l => strOfList (trimL l))).map
      (fun t => (substName localNames aliases t).getD "") =
      (splitOnCharL ',' g1).map (fun l => strOfList (trimL l)) := map_getD_eq hns
  simp only [joinComma, List.map_map, Function.comp_def] at hmg ⊢
  rw [hmg]

/-- Witness for claim C10: the list A,B with no substitutable name is
normalized to A comma space B. -/
theorem commaListNormalization_witness :
    replaceTypes [] [] "f.js" 1 "A,B" = Except.ok "A, B" := by
  have h := commaListNormalization [] [] "f.js" 1 "A,B" ("A,B".data) rfl (by decide)
  exact h.trans (by rfl)

/-! ## Resolution lemmas -/

theorem getFileInfo_fst (reg : Registry) (f : String) :
    (getFileInfo reg f false).1 = lookupL reg f := by
  unfold getFileInfo
  cases lookupL reg f <;> rfl

/-- The value resolveImports stores for a request slot, written with a
plain registry lookup. -/
def resolveSlot (reg : Registry) (f e : String) : AliasSlot :=
  match lookupL reg f with
  | none => AliasSlot.fail
  | some importFrom =>
    match jsTruthy (lookupL importFrom.exports (if e = "" then "*" else e)) with
    | none => AliasSlot.fail
    | some longname => AliasSlot.res longname

theorem resolveEntry_fst (reg : Registry) (nr : String × AliasSlot) :
    (resolveEntry reg nr).1 = nr.1 := by
  obtain ⟨a, slot⟩ := nr
  cases slot <;> rfl

theorem resolveEntry_req (reg : Registry) (n f e : String) :
    resolveEntry reg (n, AliasSlot.req f e) = (n, resolveSlot reg f e) := by
  simp only [resolveEntry, resolveSlot, getFileInfo_fst]

theorem keysOf_map_fst {β γ : Type} {g : String × β → String × γ}
    (hfst : ∀ p, (g p).1 = p.1) (l : List (String × β)) :
    keysOf (l.map g) = keysOf l := by
  induction l with
  | nil => rfl
  | cons p t ih =>
    show (g p).1 :: keysOf (t.map g) = p.1 :: keysOf t
    rw [hfst p, ih]

theorem resolveImports_lookup (reg : Registry) (fi : FileInfo) {n f e : String}
    (hnd : (keysOf fi.localImportAliases).Nodup)
    (hmem : (n, AliasSlot.req f e) ∈ fi.localImportAliases) :
    lookupL (resolveImports reg fi).localImportAliases n =
      some (resolveSlot reg f e) := by
  unfold resolveImports
  have hne : fi.localImportAliases.isEmpty = false := by
    cases hL : fi.localImportAliases with
    | nil => rw [hL] at hmem; cases hmem
    | cons a b => rfl
  rw [if_neg (by rw [hne]; exact Bool.false_ne_true)]
  have hkeys : keysOf (fi.localImportAliases.map (resolveEntry reg)) =
      keysOf fi.localImportAliases :=
    keysOf_map_fst (resolveEntry_fst reg) fi.localImportAliases
  apply lookupL_eq_of_mem_nodup (by rw [hkeys]; exact hnd)
  have hmm := List.mem_map_of_mem (resolveEntry reg) hmem
  rw [resolveEntry_req] at hmm
  exact hmm

/-! ## Claim C9: registry idempotence -/

/-- Claim C9: the registry is idempotent: a plain lookup never inserts
a record and leaves the registry unchanged; create-if-absent on an
existing path returns the existing record unchanged; and no access
ever duplicates a key, so at most one record exists per path. -/
theorem registryIdempotent :
    (∀ (reg : Registry) (fn : String),
       getFileInfo reg fn false = (lookupL reg fn, reg)) ∧
    (∀ (reg : Registry) (fn : String) (fi : FileInfo),
       lookupL reg fn = some fi → getFileInfo reg fn true = (some fi, reg)) ∧
    (∀ (reg : Registry) (fn : String) (getNew : Bool),
       (keysOf reg).Nodup → (keysOf (getFileInfo reg fn getNew).2).Nodup) := by
  refine ⟨?_, ?_, ?_⟩
  · intro reg fn
    unfold getFileInfo
    cases lookupL reg fn <;> rfl
  · intro reg fn fi h
    unfold getFileInfo
    rw [h]
  · intro reg fn b hnd
    unfold getFileInfo
    cases hL : lookupL reg fn with
    | some fi => exact hnd
    | none =>
      cases b with
      | false => exact hnd
      | true =>
        have hfn : fn ∉ keysOf reg := (lookupL_eq_none_iff reg fn).mp hL
        simp only [keysOf, List.map_append, List.map_cons, List.map_nil, if_true]
        rw [List.nodup_append]
        refine ⟨hnd, List.nodup_singleton _, fun a ha hb => ?_⟩
        simp only [List.mem_singleton] at hb
        subst hb
        exact hfn ha

def regW : Registry := [("a.js", FileInfo.empty "a.js")]

/-- Witness for claim C9 on a one-entry registry. -/
theorem registryIdempotent_witness :
    getFileInfo regW "a.js" false = (some (FileInfo.empty "a.js"), regW) ∧
    getFileInfo regW "a.js" true = (some (FileInfo.empty "a.js"), regW) ∧
    (keysOf (getFileInfo regW "b.js" true).2).Nodup := by
  refine ⟨?_, ?_, ?_⟩
  · exact (registryIdempotent.1 regW "a.js").trans (by rfl)
  · exact registryIdempotent.2.1 regW "a.js" (FileInfo.empty "a.js") rfl
  · exact registryIdempotent.2.2 regW "b.js" true (by decide)

/-! ## Claim C4: alias resolution outcomes -/

/-- Claim C4: for every alias request, a registry miss on the target
file yields the failed (null) slot without raising; otherwise the key
looked up in the export table of the target is the exported path when
nonempty and the star sentinel when empty; a missing key yields the
failed slot and a present canonical name is stored as the resolved
slot; and when every input slot is a request, every slot after the
barrier is resolved or failed, never a leftover request pair. -/
theorem aliasResolutionSpec :
    (∀ (reg : Registry) (fi : FileInfo) (n f e : String),
       (keysOf fi.localImportAliases).Nodup →
       (n, AliasSlot.req f e) ∈ fi.localImportAliases →
       lookupL reg f = none →
       lookupL (resolveImports reg fi).localImportAliases n =
         some AliasSlot.fail) ∧
    (∀ (reg : Registry) (fi tgt : FileInfo) (n f e : String),
       (keysOf fi.localImportAliases).Nodup →
       (n, AliasSlot.req f e) ∈ fi.localImportAliases →
       lookupL reg f = some tgt →
       lookupL tgt.exports (if e = "" then "*" else e) = none →
       lookupL (resolveImports reg fi).localImportAliases n =
         some AliasSlot.fail) ∧
    (∀ (reg : Registry) (fi tgt : FileInfo) (n f e longname : String),
       (keysOf fi.localImportAliases).Nodup →
       (n, AliasSlot.req f e) ∈ fi.localImportAliases →
       lookupL reg f = some tgt →
       lookupL tgt.exports (if e = "" then "*" else e) = some longname →
       longname ≠ "" →
       lookupL (resolveImports reg fi).localImportAliases n =
         some (AliasSlot.res longname)) ∧
    (∀ (reg : Registry) (fi : FileInfo),
       (∀ p ∈ fi.localImportAliases, ∃ f e, p.2 = AliasSlot.req f e) →
       ∀ p ∈ (resolveImports reg fi).localImportAliases,
         p.2 = AliasSlot.fail ∨ ∃ longname, p.2 = AliasSlot.res longname) := by
  refine ⟨?_, ?_, ?_, ?_⟩
  · intro reg fi n f e hnd hmem hlook
    rw [resolveImports_lookup reg fi hnd hmem]
    simp [resolveSlot, hlook]
  · intro reg fi tgt n f e hnd hmem hlook hkey
    rw [resolveImports_lookup reg fi hnd hmem]
    simp [resolveSlot, hlook, hkey, jsTruthy]
  · intro reg fi tgt n f e longname hnd hmem hlook hkey hne
    rw [resolveImports_lookup reg fi hnd hmem]
    simp [resolveSlot, hlook, hkey, jsTruthy, hne]
  · intro reg fi hreq p hp
    unfold resolveImports at hp
    by_cases hE : fi.localImportAliases.isEmpty
    · rw [if_pos hE] at hp
      have : fi.localImportAliases = [] := List.isEmpty_iff.mp hE
      have hp' := hp
      rw [this] at hp'
      cases hp'
    · rw [if_neg hE] at hp
      simp only [] at hp
      rcases List.mem_map.mp hp with ⟨q, hq, rfl⟩
      obtain ⟨f, e, hqe⟩ := hreq q hq
      obtain ⟨n', slot⟩ := q
      simp only [] at hqe
      subst hqe
      rw [resolveEntry_req]
      unfold resolveSlot
      cases hg : lookupL reg f with
      | none => left; rfl
      | some tgt =>
        cases htr : jsTruthy (lookupL tgt.exports (if e = "" then "*" else e)) with
        | none => left; simp [htr]
        | some ln => right; exact ⟨ln, by simp [htr]⟩

def fiTargetW : FileInfo :=
  { filename := "/proj/a.js", localImportAliases := [],
    longnamesByDeclaration := [], mappings := [],
    exports := [("*", "pkg.A"), ("Widget", "pkg.Widget")] }

def regResolveW : Registry := [("/proj/a.js", fiTargetW)]

def fiImporterW : FileInfo :=
  { filename := "/proj/b.js",
    localImportAliases :=
      [("W", AliasSlot.req "/proj/a.js" "Widget"),
       ("M", AliasSlot.req "/proj/missing.js" ""),
       ("S", AliasSlot.req "/proj/a.js" ""),
       ("X", AliasSlot.req "/proj/a.js" "Nope")],
    longnamesByDeclaration := [], mappings := [], exports := [] }

/-- Witness for claim C4 on a concrete registry: a registry miss and a
missing export key both fail, the empty exported path defaults to the
star key, a present canonical name resolves, and every final slot is
resolved or failed. -/
theorem aliasResolutionSpec_witness :
    lookupL (resolveImports regResolveW fiImporterW).localImportAliases "M" =
      some AliasSlot.fail ∧
    lookupL (resolveImports regResolveW fiImporterW).localImportAliases "X" =
      some AliasSlot.fail ∧
    lookupL (resolveImports regResolveW fiImporterW).localImportAliases "S" =
      some (AliasSlot.res "pkg.A") ∧
    lookupL (resolveImports regResolveW fiImporterW).localImportAliases "W" =
      some (AliasSlot.res "pkg.Widget") ∧
    (∀ p ∈ (resolveImports regResolveW fiImporterW).localImportAliases,
      p.2 = AliasSlot.fail ∨ ∃ longname, p.2 = AliasSlot.res longname) := by
  refine ⟨?_, ?_, ?_, ?_, ?_⟩
  · exact aliasResolutionSpec.1 regResolveW fiImporterW "M" "/proj/missing.js" ""
      (by decide) (by decide) (by decide)
  · exact aliasResolutionSpec.2.1 regResolveW fiImporterW fiTargetW "X"
      "/proj/a.js" "Nope" (by decide) (by decide) (by decide) (by decide)
  · exact aliasResolutionSpec.2.2.1 regResolveW fiImporterW fiTargetW "S"
      "/proj/a.js" "" "pkg.A" (by decide) (by decide) (by decide) (by decide)
      (by decide)
  · exact aliasResolutionSpec.2.2.1 regResolveW fiImporterW fiTargetW "W"
      "/proj/a.js" "Widget" "pkg.Widget" (by decide) (by decide) (by decide)
      (by decide) (by decide)
  · refine aliasResolutionSpec.2.2.2 regResolveW fiImporterW ?_
    intro p hp
    simp only [fiImporterW, List.mem_cons, List.not_mem_nil, or_false] at hp
    rcases hp with h | h | h | h <;> (subst h; exact ⟨_, _, rfl⟩)

/-! ## Claim C7: files without exports -/

def fiNoModuleW : FileInfo :=
  { filename := "/proj/a.js", localImportAliases := [],
    longnamesByDeclaration := [("Foo", "pkg.Foo")],
    mappings := [("exports.Foo", "Foo")], exports := [] }

/-- Claim C7 counterexample: a file whose assignments map has no
module.exports key can still produce a nonempty export table, because
an assignment onto the default exports alias is indexed regardless;
and a type name whose alias failed is not left as originally written
but replaced by the empty string. -/
theorem noModuleExportsCounterexample :
    lookupL (indexExports fiNoModuleW).exports "Foo" = some "pkg.Foo" ∧
    (indexExports fiNoModuleW).exports ≠ [] ∧
    replaceTypes [] [("Bar", AliasSlot.fail)] "b.js" 2 "Bar" = Except.ok "" ∧
    ("" : String) ≠ "Bar" :=
  ⟨rfl, by decide, rfl, by decide⟩

/-- Claim C7 (amended): for every file whose assignments map is empty
the computed export table is empty; every alias importing (with any
exported path) from a file whose export table is empty resolves to
failed (null); and a type name that is such a failed alias is
rewritten to the empty string by the type rewriter (the null
resolution is substituted and joined as the empty string). -/
theorem emptyAssignmentsNoExports :
    (∀ fi : FileInfo, fi.mappings = [] → fi.exports = [] →
       (indexExports fi).exports = []) ∧
    (∀ (reg : Registry) (fi tgt : FileInfo) (n f e : String),
       (keysOf fi.localImportAliases).Nodup →
       (n, AliasSlot.req f e) ∈ fi.localImportAliases →
       lookupL reg f = some tgt → tgt.exports = [] →
       lookupL (resolveImports reg fi).localImportAliases n =
         some AliasSlot.fail) ∧
    (∀ (localNames : List (String × String)) (aliases : List (String × AliasSlot))
       (metaFilename : String) (lineno : Nat) (a : String),
       a.data ≠ [] → (∀ c ∈ a.data, isWordChar c = true) →
       lookupL localNames a = none → lookupL aliases a = some AliasSlot.fail →
       replaceTypes localNames aliases metaFilename lineno a = Except.ok "") := by
  refine ⟨?_, ?_, ?_⟩
  · intro fi h1 h2
    simp [indexExports, h1, h2, lookupL]
  · intro reg fi tgt n f e hnd hmem hreg hexp
    rw [resolveImports_lookup reg fi hnd hmem]
    simp [resolveSlot, hreg, hexp, lookupL, jsTruthy]
  · intro localNames aliases metaFilename lineno a hne hw hlo hao
    rw [replaceTypes_single_word localNames aliases metaFilename lineno hne hw]
    simp [substName, hlo, hao, AliasSlot.joinValue]

def fiEmptyW : FileInfo :=
  { filename := "/proj/e.js", localImportAliases := [],
    longnamesByDeclaration := [], mappings := [], exports := [] }

def regEmptyW : Registry := [("/proj/e.js", indexExports fiEmptyW)]

def fiImpEmptyW : FileInfo :=
  { filename := "/proj/b.js",
    localImportAliases := [("E", AliasSlot.req "/proj/e.js" "")],
    longnamesByDeclaration := [], mappings := [], exports := [] }

/-- Witness for the amended claim C7 on a file with no assignments at
all. -/
theorem emptyAssignmentsNoExports_witness :
    (indexExports fiEmptyW).exports = [] ∧
    lookupL (resolveImports regEmptyW fiImpEmptyW).localImportAliases "E" =
      some AliasSlot.fail ∧
    replaceTypes [] [("E", AliasSlot.fail)] "b.js" 4 "E" = Except.ok "" := by
  refine ⟨?_, ?_, ?_⟩
  · exact emptyAssignmentsNoExports.1 fiEmptyW rfl rfl
  · exact emptyAssignmentsNoExports.2.1 regEmptyW fiImpEmptyW
      (indexExports fiEmptyW) "E" "/proj/e.js" "" (by decide) (by decide)
      (by decide) (by decide)
  · exact emptyAssignmentsNoExports.2.2 [] [("E", AliasSlot.fail)] "b.js" 4 "E"
      (by decide) (by decide) (by decide) (by decide)

/-! ## Claim C3: export precedence -/

theorem string_data_inj {s t : String} (h : s.data = t.data) : s = t := by
  cases s; cases t; cases h; rfl

theorem strLen_append (a b : String) : strLen (a ++ b) = strLen a + strLen b := by
  simp [strLen, string_data_append]

theorem strStartsWith_append (a b : String) : strStartsWith (a ++ b) a = true := by
  unfold strStartsWith
  rw [string_data_append]
  exact List.isPrefixOf_iff_prefix.mpr (List.prefix_append _ _)

theorem strDrop_len_append (a b : String) : strDrop (a ++ b) (strLen a) = b := by
  apply string_data_inj
  show ((a ++ b).data.drop (strLen a)) = b.data
  rw [string_data_append]
  exact drop_len_append a.data b.data

theorem startsWith_decomp {k pre : String} (h : strStartsWith k pre = true) :
    k = pre ++ strDrop k (strLen pre) := by
  unfold strStartsWith at h
  obtain ⟨q, hq⟩ := List.isPrefixOf_iff_prefix.mp h
  apply string_data_inj
  rw [string_data_append]
  rw [← hq]
  congr 1
  show q = k.data.drop pre.data.length
  rw [← hq, drop_len_append]

theorem strLen_dot_append (X : String) : strLen (X ++ ".") = strLen X + 1 := by
  rw [strLen_append]; rfl

theorem append_dot_star (X : String) : X ++ "." ++ "*" = X ++ ".*" :=
  string_data_inj (by simp [string_data_append])

/-- The export-table entry one assignment contributes: the suffix key
and the canonical name, or nothing when the assignment is skipped. -/
def writeKey (longnames : List (String × String)) (exportsAlias : String)
    (kv : String × String) : Option (String × String) :=
  if strStartsWith kv.1 (exportsAlias ++ ".") then
    match jsTruthy (lookupL longnames kv.2) with
    | some longname => some (strDrop kv.1 (strLen exportsAlias + 1), longname)
    | none => none
  else none

theorem exportStep_eq (lns : List (String × String)) (ea : String)
    (acc : List (String × String)) (kv : String × String) :
    exportStep lns ea acc kv =
      match writeKey lns ea kv with
      | some p => mapSet acc p.1 p.2
      | none => acc := by
  unfold exportStep writeKey
  by_cases h : strStartsWith kv.1 (ea ++ ".") = true
  · rw [if_pos h, if_pos h]
    cases jsTruthy (lookupL lns kv.2) <;> rfl
  · rw [if_neg h, if_neg h]

theorem writeKey_of_entry (lns : List (String × String)) (X p v : String) :
    writeKey lns X (X ++ "." ++ p, v) =
      match jsTruthy (lookupL lns v) with
      | some c => some (p, c)
      | none => none := by
  unfold writeKey
  rw [if_pos (strStartsWith_append (X ++ ".") p)]
  cases jsTruthy (lookupL lns v) with
  | none => rfl
  | some c =>
    simp only []
    rw [show strLen X + 1 = strLen (X ++ ".") from (strLen_dot_append X).symm]
    rw [strDrop_len_append]

theorem writeKey_inv (lns : List (String × String)) (X : String)
    (kv : String × String) {p c : String}
    (h : writeKey lns X kv = some (p, c)) :
    kv.1 = X ++ "." ++ p ∧ jsTruthy (lookupL lns kv.2) = some c := by
  unfold writeKey at h
  by_cases hsw : strStartsWith kv.1 (X ++ ".") = true
  · rw [if_pos hsw] at h
    cases htr : jsTruthy (lookupL lns kv.2) with
    | none => rw [htr] at h; cases h
    | some c' =>
      rw [htr] at h
      simp only [Option.some.injEq, Prod.mk.injEq] at h
      obtain ⟨h1, h2⟩ := h
      subst h2
      constructor
      · rw [← h1]
        rw [show strLen X + 1 = strLen (X ++ ".") from (strLen_dot_append X).symm]
        exact startsWith_decomp hsw
      · rfl
  · rw [if_neg hsw] at h
    cases h

theorem exportFold_unwritten (lns : List (String × String)) (ea : String) :
    ∀ (m : List (String × String)) (acc : List (String × String)) (key : String),
      (∀ kv ∈ m, ∀ v, writeKey lns ea kv ≠ some (key, v)) →
      lookupL (m.foldl (exportStep lns ea) acc) key = lookupL acc key := by
  intro m
  induction m with
  | nil => intro acc key _; rfl
  | cons kv t ih =>
    intro acc key h
    rw [List.foldl_cons]
    rw [ih _ key (fun kv' h' v => h kv' (List.mem_cons_of_mem _ h') v)]
    rw [exportStep_eq]
    cases hw : writeKey lns ea kv with
    | none => rfl
    | some p =>
      have hkey : key ≠ p.1 := fun he =>
        h kv (List.mem_cons_self kv t) p.2 (by rw [hw, he])
      exact lookupL_mapSet_ne acc p.2 hkey

theorem exportFold_stable (lns : List (String × String)) (ea : String)
    {key c : String} :
    ∀ (m : List (String × String)) (acc : List (String × String)),
      (∀ kv ∈ m, ∀ v, writeKey lns ea kv = some (key, v) → v = c) →
      lookupL acc key = some c →
      lookupL (m.foldl (exportStep lns ea) acc) key = some c := by
  intro m
  induction m with
  | nil => intro acc _ hacc; exact hacc
  | cons kv t ih =>
    intro acc h hacc
    rw [List.foldl_cons]
    apply ih _ (fun kv' h' v hv => h kv' (List.mem_cons_of_mem _ h') v hv)
    rw [exportStep_eq]
    cases hw : writeKey lns ea kv with
    | none => exact hacc
    | some p =>
      by_cases hk : p.1 = key
      · have hv : p.2 = c :=
          h kv (List.mem_cons_self kv t) p.2 (by rw [hw, ← hk])
        have hms : mapSet acc p.1 p.2 = mapSet acc key c := by rw [hk, hv]
        show lookupL (mapSet acc p.1 p.2) key = some c
        rw [hms, lookupL_mapSet_self]
      · show lookupL (mapSet acc p.1 p.2) key = some c
        rw [lookupL_mapSet_ne acc p.2 (fun he => hk he.symm)]
        exact hacc

theorem exportFold_written (lns : List (String × String)) (ea : String)
    {key c : String} :
    ∀ (m : List (String × String)) (acc : List (String × String))
      (kv₀ : String × String), kv₀ ∈ m →
      writeKey lns ea kv₀ = some (key, c) →
      (∀ kv ∈ m, ∀ v, writeKey lns ea kv = some (key, v) → v = c) →
      lookupL (m.foldl (exportStep lns ea) acc) key = some c := by
  intro m
  induction m with
  | nil => intro acc kv₀ h; cases h
  | cons kv t ih =>
    intro acc kv₀ hmem hw huniq
    rw [List.foldl_cons]
    cases hwh : writeKey lns ea kv with
    | some p =>
      by_cases hk : p.1 = key
      · have hv : p.2 = c :=
          huniq kv (List.mem_cons_self kv t) p.2 (by rw [hwh, ← hk])
        apply exportFold_stable lns ea t _
          (fun kv' h' v hv' => huniq kv' (List.mem_cons_of_mem _ h') v hv')
        rw [exportStep_eq, hwh]
        have hms : mapSet acc p.1 p.2 = mapSet acc key c := by rw [hk, hv]
        show lookupL (mapSet acc p.1 p.2) key = some c
        rw [hms, lookupL_mapSet_self]
      · have hmem' : kv₀ ∈ t := by
          rcases List.mem_cons.mp hmem with he | ht
          · exfalso
            apply hk
            rw [← he] at hwh
            rw [hw] at hwh
            cases hwh
            rfl
          · exact ht
        exact ih _ kv₀ hmem' hw
          (fun kv' h' v hv' => huniq kv' (List.mem_cons_of_mem _ h') v hv')
    | none =>
      have hmem' : kv₀ ∈ t := by
        rcases List.mem_cons.mp hmem with he | ht
        · exfalso
          rw [← he] at hwh
          rw [hw] at hwh
          cases hwh
        · exact ht
      exact ih _ kv₀ hmem' hw
        (fun kv' h' v hv' => huniq kv' (List.mem_cons_of_mem _ h') v hv')

theorem aliasFold_const {m : List (String × String)} {a0 : String}
    (h : ∀ kv ∈ m, kv.2 ≠ "exports") :
    m.foldl (fun a kv => if kv.2 = "exports" then kv.1 else a) a0 = a0 := by
  induction m generalizing a0 with
  | nil => rfl
  | cons kv t ih =>
    rw [List.foldl_cons, if_neg (h kv (List.mem_cons_self kv t))]
    exact ih (fun kv' h' => h kv' (List.mem_cons_of_mem _ h'))

theorem indexExports_exports_of_me (fi : FileInfo) (X : String)
    (hme : lookupL fi.mappings "module.exports" = some X)
    (hnoexp : ∀ kv ∈ fi.mappings, kv.2 ≠ "exports") :
    (indexExports fi).exports =
      fi.mappings.foldl (exportStep fi.longnamesByDeclaration X)
        (match jsTruthy (lookupL fi.longnamesByDeclaration X) with
         | some longname => mapSet fi.exports "*" longname
         | none => fi.exports) := by
  unfold indexExports
  simp only [hme, aliasFold_const hnoexp]

/-- Claim C3: export precedence.  For a file whose assignments contain
module.exports mapped to X and no assignment whose value is the
literal string exports, indexing the exports sets the star entry to
the canonical name of X when declaredNames holds one, sets the entry
for every suffix p of an assignment X.p whose value has a canonical
name to that canonical name, and silently skips the entries whose
value has no canonical name. -/
theorem exportPrecedence (fi : FileInfo) (X : String)
    (hme : lookupL fi.mappings "module.exports" = some X)
    (hnoexp : ∀ kv ∈ fi.mappings, kv.2 ≠ "exports")
    (hnostar : ∀ kv ∈ fi.mappings, kv.1 ≠ X ++ ".*")
    (hnd : (keysOf fi.mappings).Nodup)
    (hexp0 : fi.exports = []) :
    (∀ cX, lookupL fi.longnamesByDeclaration X = some cX → cX ≠ "" →
       lookupL (indexExports fi).exports "*" = some cX) ∧
    (∀ p v c, (X ++ "." ++ p, v) ∈ fi.mappings →
       lookupL fi.longnamesByDeclaration v = some c → c ≠ "" →
       lookupL (indexExports fi).exports p = some c) ∧
    (∀ p v, (X ++ "." ++ p, v) ∈ fi.mappings →
       jsTruthy (lookupL fi.longnamesByDeclaration v) = none →
       lookupL (indexExports fi).exports p = none) := by
  have hx := indexExports_exports_of_me fi X hme hnoexp
  refine ⟨?_, ?_, ?_⟩
  · intro cX hcx hne
    rw [hx, hcx, hexp0]
    have htr : jsTruthy (some cX) = some cX := by simp [jsTruthy, hne]
    rw [htr]
    rw [exportFold_unwritten fi.longnamesByDeclaration X fi.mappings _ "*" ?_]
    · exact lookupL_mapSet_self [] "*" cX
    · intro kv hkv v hwv
      have hinv := writeKey_inv fi.longnamesByDeclaration X kv hwv
      apply hnostar kv hkv
      rw [hinv.1, append_dot_star]
  · intro p v c hmem hlk hcne
    rw [hx]
    apply exportFold_written fi.longnamesByDeclaration X fi.mappings _
      (X ++ "." ++ p, v) hmem
    · rw [writeKey_of_entry, hlk]
      simp [jsTruthy, hcne]
    · intro kv hkv v' hv'
      have hinv := writeKey_inv fi.longnamesByDeclaration X kv hv'
      have hkv' : (X ++ "." ++ p, kv.2) ∈ fi.mappings := by
        rw [← hinv.1]
        simpa using hkv
      have hveq : v = kv.2 := mem_values_eq_of_nodup hnd hmem hkv'
      have h2 := hinv.2
      rw [← hveq, hlk] at h2
      have h3 : jsTruthy (some c) = some c := by simp [jsTruthy, hcne]
      rw [h3] at h2
      exact ((Option.some.injEq _ _).mp h2).symm
  · intro p v hmem htr
    rw [hx]
    have hpstar : p ≠ "*" := by
      intro hp
      apply hnostar (X ++ "." ++ p, v) hmem
      rw [hp, append_dot_star]
    rw [exportFold_unwritten fi.longnamesByDeclaration X fi.mappings _ p ?_]
    · rw [hexp0]
      cases jsTruthy (lookupL fi.longnamesByDeclaration X) with
      | none => rfl
      | some c =>
        show lookupL (mapSet [] "*" c) p = none
        rw [lookupL_mapSet_ne [] c hpstar]
        rfl
    · intro kv hkv v' hwv
      have hinv := writeKey_inv fi.longnamesByDeclaration X kv hwv
      have hkv' : (X ++ "." ++ p, kv.2) ∈ fi.mappings := by
        rw [← hinv.1]
        simpa using hkv
      have hveq : v = kv.2 := mem_values_eq_of_nodup hnd hmem hkv'
      have h2 := hinv.2
      rw [← hveq, htr] at h2
      cases h2

def fiModuleW : FileInfo :=
  { filename := "/proj/m.js", localImportAliases := [],
    longnamesByDeclaration :=
      [("Impl", "pkg.Impl"), ("helperFn", "pkg.Impl.helper")],
    mappings :=
      [("module.exports", "Impl"), ("Impl.helper", "helperFn"),
       ("Impl.skip", "mystery")],
    exports := [] }

/-- Witness for claim C3: module.exports is bound to Impl, the
attached property Impl.helper appears under the suffix helper, the
star entry holds the canonical name of Impl, and the attachment whose
value has no canonical name is skipped. -/
theorem exportPrecedence_witness :
    lookupL (indexExports fiModuleW).exports "*" = some "pkg.Impl" ∧
    lookupL (indexExports fiModuleW).exports "helper" =
      some "pkg.Impl.helper" ∧
    lookupL (indexExports fiModuleW).exports "skip" = none := by
  have h := exportPrecedence fiModuleW "Impl" (by decide)
    (by decide) (by decide) (by decide) (by decide)
  refine ⟨?_, ?_, ?_⟩
  · exact h.1 "pkg.Impl" (by decide) (by decide)
  · exact h.2.1 "helper" "helperFn" "pkg.Impl.helper"
      (by decide) (by decide) (by decide)
  · exact h.2.2 "skip" "mystery" (by decide) (by decide)

/-! ## Claim C8: determinism under file ordering.

The barrier side first: the resolution loop reads the registry only
through the exports tables, which it never changes, so its effect on
each entry is a function of the post-indexing registry viewed as a
lookup table. -/

/-- The part of the registry resolveImports can observe: the exports
table of each file. -/
def evLookup (reg : Registry) (p : String) : Option (List (String × String)) :=
  (lookupL reg p).map FileInfo.exports

theorem resolveImports_exports (reg : Registry) (fi : FileInfo) :
    (resolveImports reg fi).exports = fi.exports := by
  unfold resolveImports
  split <;> rfl

theorem map_congr_fun {α β : Type} {f g : α → β} (h : ∀ a, f a = g a) :
    ∀ l : List α, l.map f = l.map g := by
  intro l
  induction l with
  | nil => rfl
  | cons x t ih => simp [h x, ih]

theorem resolveEntry_congr {r r' : Registry}
    (h : ∀ p, evLookup r p = evLookup r' p) (nr : String × AliasSlot) :
    resolveEntry r nr = resolveEntry r' nr := by
  obtain ⟨n, slot⟩ := nr
  cases slot with
  | res s => rfl
  | fail => rfl
  | req f e =>
    rw [resolveEntry_req, resolveEntry_req]
    unfold resolveSlot
    have he := h f
    unfold evLookup at he
    cases h1 : lookupL r f with
    | none =>
      cases h2 : lookupL r' f with
      | none => rfl
      | some t' => rw [h1, h2] at he; cases he
    | some t =>
      cases h2 : lookupL r' f with
      | none => rw [h1, h2] at he; cases he
      | some t' =>
        rw [h1, h2] at he
        simp only [Option.map_some', Option.some.injEq] at he
        simp [he]

theorem resolveImports_congr {r r' : Registry}
    (h : ∀ p, evLookup r p = evLookup r' p) (fi : FileInfo) :
    resolveImports r fi = resolveImports r' fi := by
  unfold resolveImports
  split
  · rfl
  · rw [map_congr_fun (resolveEntry_congr h) fi.localImportAliases]

theorem lookupL_mapAdjust_self {β : Type} (l : List (String × β)) (k : String)
    (f : β → β) : lookupL (mapAdjust l k f) k = (lookupL l k).map f := by
  induction l with
  | nil => rfl
  | cons p t ih =>
    by_cases h : p.1 = k
    · simp [mapAdjust, h, lookupL]
    · simp only [mapAdjust, if_neg h, lookupL, ih, if_neg h]

theorem lookupL_mapAdjust_ne {β : Type} (l : List (String × β)) {k a : String}
    (f : β → β) (h : a ≠ k) : lookupL (mapAdjust l k f) a = lookupL l a := by
  have hka : ¬ k = a := fun hh => h hh.symm
  induction l with
  | nil => rfl
  | cons p t ih =>
    by_cases hp : p.1 = k
    · simp only [mapAdjust, if_pos hp, lookupL, if_neg hka, hp, if_neg hka]
    · simp only [mapAdjust, if_neg hp, lookupL, ih]

theorem evLookup_mapAdjust {reg : Registry} {k : String} {f : FileInfo → FileInfo}
    (hf : ∀ fi, (f fi).exports = fi.exports) (p : String) :
    evLookup (mapAdjust reg k f) p = evLookup reg p := by
  unfold evLookup
  by_cases h : p = k
  · subst h
    rw [lookupL_mapAdjust_self]
    cases lookupL reg p with
    | none => rfl
    | some fi => simp [hf fi]
  · rw [lookupL_mapAdjust_ne reg f h]

theorem resolveLoop_evLookup : ∀ (ks : List String) (reg : Registry) (p : String),
    evLookup (resolveLoop ks reg) p = evLookup reg p := by
  intro ks
  induction ks with
  | nil => intro reg p; rfl
  | cons k t ih =>
    intro reg p
    rw [resolveLoop]
    rw [ih _ p]
    exact evLookup_mapAdjust (fun fi => resolveImports_exports reg fi) p

theorem resolveLoop_lookup_notin : ∀ (ks : List String) (reg : Registry)
    {a : String}, a ∉ ks →
    lookupL (resolveLoop ks reg) a = lookupL reg a := by
  intro ks
  induction ks with
  | nil => intro reg a _; rfl
  | cons k t ih =>
    intro reg a ha
    rw [resolveLoop]
    rw [ih _ (fun h => ha (List.mem_cons_of_mem _ h))]
    exact lookupL_mapAdjust_ne reg _ (fun h => ha (h ▸ List.mem_cons_self k t))

theorem resolveLoop_lookup_mem : ∀ (ks : List String) (reg : Registry)
    {a : String}, ks.Nodup → a ∈ ks →
    lookupL (resolveLoop ks reg) a =
      (lookupL reg a).map (fun fi => resolveImports reg fi) := by
  intro ks
  induction ks with
  | nil => intro reg a _ ha; cases ha
  | cons k t ih =>
    intro reg a hnd ha
    have hnd' := List.nodup_cons.mp hnd
    rw [resolveLoop]
    by_cases hak : a = k
    · subst hak
      rw [resolveLoop_lookup_notin t _ hnd'.1]
      exact lookupL_mapAdjust_self reg a _
    · have hat : a ∈ t := by
        rcases List.mem_cons.mp ha with h | h
        · exact absurd h hak
        · exact h
      rw [ih _ hnd'.2 hat]
      rw [lookupL_mapAdjust_ne reg _ hak]
      have hev : ∀ p, evLookup (mapAdjust reg k
          (fun fi => resolveImports reg fi)) p = evLookup reg p :=
        evLookup_mapAdjust (fun fi => resolveImports_exports reg fi)
      cases lookupL reg a with
      | none => rfl
      | some fi =>
        exact congrArg some (resolveImports_congr hev fi)

theorem keysOf_indexExportsPhase (reg : Registry) :
    keysOf (indexExportsPhase reg) = keysOf reg := by
  unfold indexExportsPhase
  exact @keysOf_map_fst FileInfo FileInfo
    (fun kv => (kv.1, indexExports kv.2)) (fun _ => rfl) reg

theorem lookupL_indexExportsPhase (reg : Registry) (a : String) :
    lookupL (indexExportsPhase reg) a = (lookupL reg a).map indexExports := by
  induction reg with
  | nil => rfl
  | cons p t ih =>
    by_cases h : p.1 = a
    · simp [indexExportsPhase, lookupL, h]
    · simp only [indexExportsPhase, List.map_cons, lookupL, if_neg h]
      exact ih

theorem resolveBarrier_lookup (reg : Registry) (hnd : (keysOf reg).Nodup)
    (a : String) :
    lookupL (resolveBarrier reg) a =
      ((lookupL reg a).map indexExports).map
        (fun fi => resolveImports (indexExportsPhase reg) fi) := by
  unfold resolveBarrier
  have hknd : (keysOf (indexExportsPhase reg)).Nodup := by
    rw [keysOf_indexExportsPhase]; exact hnd
  by_cases hmem : a ∈ keysOf (indexExportsPhase reg)
  · rw [resolveLoop_lookup_mem (keysOf (indexExportsPhase reg)) _ hknd hmem]
    rw [lookupL_indexExportsPhase]
  · rw [resolveLoop_lookup_notin (keysOf (indexExportsPhase reg)) _ hmem]
    rw [lookupL_indexExportsPhase]
    have hnone : lookupL reg a = none := by
      rw [lookupL_eq_none_iff]
      rw [keysOf_indexExportsPhase] at hmem
      exact hmem
    rw [hnone]
    rfl

/-! ## Claim C8, event side: processing one file only touches its own
registry entry, so delivering files in a different order builds a
permuted registry with identical per-file records. -/

/-- Do all newDoclet events of this input resolve to its own file?
The host delivers declaration events for exactly the file being
parsed. -/
def consistentInput (inp : FileInput) : Bool :=
  inp.doclets.all (fun d =>
    match d.meta with
    | none => true
    | some m => pathResolve m.path m.filename == inp.filename)

theorem consistent_spec {inp : FileInput} (hc : consistentInput inp = true) :
    ∀ d ∈ inp.doclets, ∀ m, d.meta = some m →
      pathResolve m.path m.filename = inp.filename := by
  intro d hd m hm
  have h := List.all_eq_true.mp hc d hd
  rw [hm] at h
  simpa using h

theorem getFileInfo_true_append {reg : Registry} (t : Registry) {k : String}
    (h : k ∉ keysOf reg) :
    getFileInfo (reg ++ t) k true =
      ((getFileInfo t k true).1, reg ++ (getFileInfo t k true).2) := by
  unfold getFileInfo
  rw [lookupL_append_left t h]
  cases lookupL t k with
  | some fi => rfl
  | none => simp [List.append_assoc]

theorem mapUpsert_append {reg : Registry} (t : Registry) {k : String}
    (f : FileInfo → FileInfo) (h : k ∉ keysOf reg) :
    mapUpsert (reg ++ t) k f = reg ++ mapUpsert t k f := by
  unfold mapUpsert
  rw [getFileInfo_true_append t h]
  cases hg : getFileInfo t k true with
  | mk o reg' =>
    cases o with
    | some fi =>
      show mapSet (reg ++ reg') k (f fi) = reg ++ mapSet reg' k (f fi)
      exact mapSet_append_left reg' (f fi) h
    | none => rfl

theorem typedefImportAliases_append {reg : Registry} (t : Registry) {fn : String}
    (src : SourceText) (h : fn ∉ keysOf reg) :
    typedefImportAliases (reg ++ t) fn src =
      reg ++ typedefImportAliases t fn src := by
  unfold typedefImportAliases
  by_cases hE : src.typedefs.isEmpty = true
  · rw [if_pos hE, if_pos hE]
  · rw [if_neg hE, if_neg hE]
    exact mapUpsert_append t _ h

theorem constSimpleRequireAliases_append {reg : Registry} (t : Registry)
    {fn : String} (src : SourceText) (h : fn ∉ keysOf reg) :
    constSimpleRequireAliases (reg ++ t) fn src =
      reg ++ constSimpleRequireAliases t fn src := by
  unfold constSimpleRequireAliases
  by_cases hE : src.simples.isEmpty = true
  · rw [if_pos hE, if_pos hE]
  · rw [if_neg hE, if_neg hE]
    exact mapUpsert_append t _ h

theorem constDestructRequireAliases_append {reg : Registry} (t : Registry)
    {fn : String} (src : SourceText) (h : fn ∉ keysOf reg) :
    constDestructRequireAliases (reg ++ t) fn src =
      reg ++ constDestructRequireAliases t fn src := by
  unfold constDestructRequireAliases
  by_cases hE : src.destructs.isEmpty = true
  · rw [if_pos hE, if_pos hE]
  · rw [if_neg hE, if_neg hE]
    exact mapUpsert_append t _ h

theorem newDoclet_append {reg : Registry} (t : Registry) (d : Doclet)
    (h : ∀ m, d.meta = some m → pathResolve m.path m.filename ∉ keysOf reg) :
    newDoclet (reg ++ t) d = reg ++ newDoclet t d := by
  unfold newDoclet
  cases hm : d.meta with
  | none => rfl
  | some m =>
    by_cases hs : d.scope ≠ "global" ∧ d.scope ≠ "static"
    · simp only [if_pos hs]
    · simp only [if_neg hs]
      exact mapUpsert_append t _ (h m hm)

theorem foldl_newDoclet_append {reg : Registry} :
    ∀ (ds : List Doclet) (t : Registry),
      (∀ d ∈ ds, ∀ m, d.meta = some m →
        pathResolve m.path m.filename ∉ keysOf reg) →
      ds.foldl newDoclet (reg ++ t) = reg ++ ds.foldl newDoclet t := by
  intro ds
  induction ds with
  | nil => intro t _; rfl
  | cons d ds ih =>
    intro t h
    rw [List.foldl_cons, List.foldl_cons]
    rw [newDoclet_append t d (fun m hm => h d (List.mem_cons_self d ds) m hm)]
    exact ih _ (fun d' h' m hm => h d' (List.mem_cons_of_mem _ h') m hm)

theorem processFileInput_append (reg : Registry) (inp : FileInput)
    (h : inp.filename ∉ keysOf reg) (hc : consistentInput inp = true) :
    ∀ t : Registry,
      processFileInput (reg ++ t) inp = reg ++ processFileInput t inp := by
  intro t
  unfold processFileInput
  have hb : beforeParse (reg ++ t) inp.filename inp.src =
      reg ++ beforeParse t inp.filename inp.src := by
    unfold beforeParse
    rw [typedefImportAliases_append t inp.src h]
    rw [constSimpleRequireAliases_append _ inp.src h]
    rw [constDestructRequireAliases_append _ inp.src h]
  rw [hb]
  apply foldl_newDoclet_append inp.doclets _
  intro d hd m hm
  rw [consistent_spec hc d hd m hm]
  exact h

/-- The registry fragment one file contributes on its own. -/
def localReg (inp : FileInput) : Registry := processFileInput [] inp

theorem keysOf_mapSet_of_mem {β : Type} (l : List (String × β)) (k : String)
    (v : β) (h : k ∈ keysOf l) : keysOf (mapSet l k v) = keysOf l := by
  induction l with
  | nil => cases h
  | cons p t ih =>
    by_cases hp : p.1 = k
    · simp [mapSet, hp, keysOf]
    · have hk : k ∈ keysOf t := by
        rcases List.mem_cons.mp h with h' | h'
        · exact absurd h'.symm hp
        · exact h'
      simp only [mapSet, if_neg hp, keysOf, List.map_cons]
      have hrec := ih hk
      simp only [keysOf] at hrec
      rw [hrec]

theorem keysOf_mapUpsert_mem (reg : Registry) (k : String)
    (f : FileInfo → FileInfo) :
    ∀ a ∈ keysOf (mapUpsert reg k f), a ∈ keysOf reg ∨ a = k := by
  intro a ha
  unfold mapUpsert getFileInfo at ha
  cases hL : lookupL reg k with
  | some fi =>
    rw [hL] at ha
    exact keysOf_mapSet_mem reg k (f fi) a ha
  | none =>
    rw [hL] at ha
    simp only [if_pos] at ha
    have hmem := keysOf_mapSet_mem (reg ++ [(k, FileInfo.empty k)]) k
      (f (FileInfo.empty k)) a ha
    rcases hmem with h | h
    · simp only [keysOf, List.map_append, List.map_cons, List.map_nil] at h
      rcases List.mem_append.mp h with h' | h'
      · left; exact h'
      · right; simpa using h'
    · right; exact h

theorem keysOf_mapUpsert_nodup (reg : Registry) (k : String)
    (f : FileInfo → FileInfo) (hnd : (keysOf reg).Nodup) :
    (keysOf (mapUpsert reg k f)).Nodup := by
  unfold mapUpsert getFileInfo
  cases hL : lookupL reg k with
  | some fi =>
    have hk : k ∈ keysOf reg := by
      by_contra hk
      rw [(lookupL_eq_none_iff reg k).mpr hk] at hL
      cases hL
    show (keysOf (mapSet reg k (f fi))).Nodup
    rw [keysOf_mapSet_of_mem reg k (f fi) hk]
    exact hnd
  | none =>
    have hk : k ∉ keysOf reg := (lookupL_eq_none_iff reg k).mp hL
    simp only [if_pos]
    show (keysOf (mapSet (reg ++ [(k, FileInfo.empty k)]) k
      (f (FileInfo.empty k)))).Nodup
    have hk' : k ∈ keysOf (reg ++ [(k, FileInfo.empty k)]) := by
      simp [keysOf]
    rw [keysOf_mapSet_of_mem _ k _ hk']
    simp only [keysOf, List.map_append, List.map_cons, List.map_nil]
    rw [List.nodup_append]
    refine ⟨hnd, List.nodup_singleton _, fun a ha hb => ?_⟩
    simp only [List.mem_singleton] at hb
    subst hb
    exact hk ha

theorem keysOf_typedefImportAliases (reg : Registry) (fn : String)
    (src : SourceText) :
    (∀ a ∈ keysOf (typedefImportAliases reg fn src),
      a ∈ keysOf reg ∨ a = fn) ∧
    ((keysOf reg).Nodup → (keysOf (typedefImportAliases reg fn src)).Nodup) := by
  unfold typedefImportAliases
  by_cases hE : src.typedefs.isEmpty = true
  · rw [if_pos hE]
    exact ⟨fun a ha => Or.inl ha, fun h => h⟩
  · rw [if_neg hE]
    exact ⟨keysOf_mapUpsert_mem reg fn _, keysOf_mapUpsert_nodup reg fn _⟩

theorem keysOf_constSimpleRequireAliases (reg : Registry) (fn : String)
    (src : SourceText) :
    (∀ a ∈ keysOf (constSimpleRequireAliases reg fn src),
      a ∈ keysOf reg ∨ a = fn) ∧
    ((keysOf reg).Nodup →
      (keysOf (constSimpleRequireAliases reg fn src)).Nodup) := by
  unfold constSimpleRequireAliases
  by_cases hE : src.simples.isEmpty = true
  · rw [if_pos hE]
    exact ⟨fun a ha => Or.inl ha, fun h => h⟩
  · rw [if_neg hE]
    exact ⟨keysOf_mapUpsert_mem reg fn _, keysOf_mapUpsert_nodup reg fn _⟩

theorem keysOf_constDestructRequireAliases (reg : Registry) (fn : String)
    (src : SourceText) :
    (∀ a ∈ keysOf (constDestructRequireAliases reg fn src),
      a ∈ keysOf reg ∨ a = fn) ∧
    ((keysOf reg).Nodup →
      (keysOf (constDestructRequireAliases reg fn src)).Nodup) := by
  unfold constDestructRequireAliases
  by_cases hE : src.destructs.isEmpty = true
  · rw [if_pos hE]
    exact ⟨fun a ha => Or.inl ha, fun h => h⟩
  · rw [if_neg hE]
    exact ⟨keysOf_mapUpsert_mem reg fn _, keysOf_mapUpsert_nodup reg fn _⟩

theorem keysOf_beforeParse (reg : Registry) (fn : String) (src : SourceText) :
    (∀ a ∈ keysOf (beforeParse reg fn src), a ∈ keysOf reg ∨ a = fn) ∧
    ((keysOf reg).Nodup → (keysOf (beforeParse reg fn src)).Nodup) := by
  unfold beforeParse
  constructor
  · intro a ha
    rcases (keysOf_constDestructRequireAliases _ fn src).1 a ha with h | h
    · rcases (keysOf_constSimpleRequireAliases _ fn src).1 a h with h' | h'
      · exact (keysOf_typedefImportAliases _ fn src).1 a h'
      · right; exact h'
    · right; exact h
  · intro h
    exact (keysOf_constDestructRequireAliases _ fn src).2
      ((keysOf_constSimpleRequireAliases _ fn src).2
        ((keysOf_typedefImportAliases _ fn src).2 h))

theorem keysOf_newDoclet (reg : Registry) (d : Doclet) (fn : String)
    (hc : ∀ m, d.meta = some m → pathResolve m.path m.filename = fn) :
    (∀ a ∈ keysOf (newDoclet reg d), a ∈ keysOf reg ∨ a = fn) ∧
    ((keysOf reg).Nodup → (keysOf (newDoclet reg d)).Nodup) := by
  unfold newDoclet
  cases hm : d.meta with
  | none => exact ⟨fun a ha => Or.inl ha, fun h => h⟩
  | some m =>
    by_cases hs : d.scope ≠ "global" ∧ d.scope ≠ "static"
    · simp only [if_pos hs]
      exact ⟨fun a ha => Or.inl ha, fun h => h⟩
    · simp only [if_neg hs]
      rw [hc m hm]
      exact ⟨keysOf_mapUpsert_mem reg fn _, keysOf_mapUpsert_nodup reg fn _⟩

theorem keysOf_foldl_newDoclet (fn : String) :
    ∀ (ds : List Doclet) (reg : Registry),
      (∀ d ∈ ds, ∀ m, d.meta = some m → pathResolve m.path m.filename = fn) →
      (∀ a ∈ keysOf (ds.foldl newDoclet reg), a ∈ keysOf reg ∨ a = fn) ∧
      ((keysOf reg).Nodup → (keysOf (ds.foldl newDoclet reg)).Nodup) := by
  intro ds
  induction ds with
  | nil => intro reg _; exact ⟨fun a ha => Or.inl ha, fun h => h⟩
  | cons d ds ih =>
    intro reg h
    rw [List.foldl_cons]
    have hd := keysOf_newDoclet reg d fn
      (fun m hm => h d (List.mem_cons_self d ds) m hm)
    have ht := ih (newDoclet reg d)
      (fun d' h' m hm => h d' (List.mem_cons_of_mem _ h') m hm)
    constructor
    · intro a ha
      rcases ht.1 a ha with h' | h'
      · exact hd.1 a h'
      · right; exact h'
    · intro hnd
      exact ht.2 (hd.2 hnd)

theorem keysOf_localReg (inp : FileInput) (hc : consistentInput inp = true) :
    (∀ a ∈ keysOf (localReg inp), a = inp.filename) ∧
    (keysOf (localReg inp)).Nodup := by
  unfold localReg processFileInput
  have hfold := keysOf_foldl_newDoclet inp.filename inp.doclets
    (beforeParse [] inp.filename inp.src)
    (fun d hd m hm => consistent_spec hc d hd m hm)
  have hbp := keysOf_beforeParse [] inp.filename inp.src
  constructor
  · intro a ha
    rcases hfold.1 a ha with h | h
    · rcases hbp.1 a h with h' | h'
      · cases h'
      · exact h'
    · exact h
  · exact hfold.2 (hbp.2 (List.nodup_nil))

theorem keysOf_append {β : Type} (a b : List (String × β)) :
    keysOf (a ++ b) = keysOf a ++ keysOf b := by
  simp [keysOf]

theorem buildReg_flatten_gen :
    ∀ (l : List FileInput) (reg : Registry),
      (∀ inp ∈ l, consistentInput inp = true) →
      (l.map FileInput.filename).Nodup →
      (∀ inp ∈ l, inp.filename ∉ keysOf reg) →
      l.foldl processFileInput reg = reg ++ (l.map localReg).flatten := by
  intro l
  induction l with
  | nil => intro reg _ _ _; simp
  | cons inp t ih =>
    intro reg hc hnd hfresh
    rw [List.foldl_cons]
    have h1 : processFileInput reg inp = reg ++ localReg inp := by
      have h := processFileInput_append reg inp
        (hfresh inp (List.mem_cons_self inp t))
        (hc inp (List.mem_cons_self inp t)) []
      simpa using h
    rw [h1]
    have hnd' := List.nodup_cons.mp hnd
    rw [ih (reg ++ localReg inp)
      (fun i hi => hc i (List.mem_cons_of_mem _ hi))
      hnd'.2 ?_]
    · simp [List.flatten_cons, List.append_assoc]
    · intro i hi
      rw [keysOf_append]
      intro hmem
      rcases List.mem_append.mp hmem with h' | h'
      · exact hfresh i (List.mem_cons_of_mem _ hi) h'
      · have heq := (keysOf_localReg inp (hc inp (List.mem_cons_self inp t))).1
          i.filename h'
        apply hnd'.1
        rw [← heq]
        exact List.mem_map_of_mem FileInput.filename hi

theorem mem_keys_flatten_localReg :
    ∀ (l : List FileInput), (∀ inp ∈ l, consistentInput inp = true) →
      ∀ a ∈ keysOf ((l.map localReg).flatten), a ∈ l.map FileInput.filename := by
  intro l
  induction l with
  | nil => intro _ a ha; cases ha
  | cons j t ih =>
    intro hc a ha
    rw [List.map_cons, List.flatten_cons, keysOf_append] at ha
    rcases List.mem_append.mp ha with h | h
    · have heq := (keysOf_localReg j (hc j (List.mem_cons_self j t))).1 a h
      rw [List.map_cons, heq]
      exact List.mem_cons_self _ _
    · have hmem := ih (fun i hi => hc i (List.mem_cons_of_mem _ hi)) a h
      rw [List.map_cons]
      exact List.mem_cons_of_mem _ hmem

theorem flatten_localReg_nodup :
    ∀ (l : List FileInput), (∀ inp ∈ l, consistentInput inp = true) →
      (l.map FileInput.filename).Nodup →
      (keysOf ((l.map localReg).flatten)).Nodup := by
  intro l
  induction l with
  | nil => intro _ _; exact List.nodup_nil
  | cons inp t ih =>
    intro hc hnd
    have hnd' := List.nodup_cons.mp hnd
    rw [List.map_cons, List.flatten_cons, keysOf_append, List.nodup_append]
    have hloc := keysOf_localReg inp (hc inp (List.mem_cons_self inp t))
    refine ⟨hloc.2, ih (fun i hi => hc i (List.mem_cons_of_mem _ hi)) hnd'.2,
      fun a ha hb => ?_⟩
    have ha' : a = inp.filename := hloc.1 a ha
    subst ha'
    exact hnd'.1 (mem_keys_flatten_localReg t
      (fun i hi => hc i (List.mem_cons_of_mem _ hi)) _ hb)

theorem perm_flatten {α : Type} {ll₁ ll₂ : List (List α)}
    (hp : List.Perm ll₁ ll₂) : List.Perm ll₁.flatten ll₂.flatten := by
  induction hp with
  | nil => exact List.Perm.refl _
  | cons x _ ih => simpa using ih.append_left x
  | swap x y l =>
    simp only [List.flatten_cons]
    rw [← List.append_assoc, ← List.append_assoc]
    exact (List.perm_append_comm).append_right _
  | trans _ _ ih₁ ih₂ => exact ih₁.trans ih₂

theorem buildReg_eq_flatten (l : List FileInput)
    (hc : ∀ inp ∈ l, consistentInput inp = true)
    (hnd : (l.map FileInput.filename).Nodup) :
    buildReg l = (l.map localReg).flatten := by
  have h := buildReg_flatten_gen l [] hc hnd (fun inp _ => by simp [keysOf])
  simpa [buildReg] using h

/-- Claim C8: determinism under file ordering.  Two runs over the same
per-file inputs, delivered and indexed in different orders, produce
after the barrier identical export tables and identical
alias-resolution results for every file: the final registry record of
every path is the same in both runs. -/
theorem pipelineOrderDeterminism (l₁ l₂ : List FileInput)
    (hp : List.Perm l₁ l₂)
    (hnd : (l₁.map FileInput.filename).Nodup)
    (hc : ∀ inp ∈ l₁, consistentInput inp = true) :
    ∀ fn, lookupL (resolveBarrier (buildReg l₁)) fn =
      lookupL (resolveBarrier (buildReg l₂)) fn := by
  intro fn
  have hnd₂ : (l₂.map FileInput.filename).Nodup :=
    ((hp.map FileInput.filename).nodup_iff).mp hnd
  have hc₂ : ∀ inp ∈ l₂, consistentInput inp = true :=
    fun inp hi => hc inp (hp.symm.subset hi)
  have hb₁ := buildReg_eq_flatten l₁ hc hnd
  have hb₂ := buildReg_eq_flatten l₂ hc₂ hnd₂
  have hrp : List.Perm (buildReg l₁) (buildReg l₂) := by
    rw [hb₁, hb₂]
    exact perm_flatten (hp.map localReg)
  have hknd₁ : (keysOf (buildReg l₁)).Nodup := by
    rw [hb₁]
    exact flatten_localReg_nodup l₁ hc hnd
  have hknd₂ : (keysOf (buildReg l₂)).Nodup := by
    have hkp : List.Perm (keysOf (buildReg l₁)) (keysOf (buildReg l₂)) :=
      hrp.map Prod.fst
    exact hkp.nodup_iff.mp hknd₁
  have hpp : List.Perm (indexExportsPhase (buildReg l₁))
      (indexExportsPhase (buildReg l₂)) := hrp.map _
  have hkp₁ : (keysOf (indexExportsPhase (buildReg l₁))).Nodup := by
    rw [keysOf_indexExportsPhase]
    exact hknd₁
  have hlook2 : ∀ a, lookupL (indexExportsPhase (buildReg l₁)) a =
      lookupL (indexExportsPhase (buildReg l₂)) a :=
    fun a => lookupL_perm hpp hkp₁ a
  have hev : ∀ a, evLookup (indexExportsPhase (buildReg l₁)) a =
      evLookup (indexExportsPhase (buildReg l₂)) a := by
    intro a
    unfold evLookup
    rw [hlook2 a]
  rw [resolveBarrier_lookup _ hknd₁ fn, resolveBarrier_lookup _ hknd₂ fn]
  rw [lookupL_perm hrp hknd₁ fn]
  cases lookupL (buildReg l₂) fn with
  | none => rfl
  | some fi =>
    simp only [Option.map_some']
    exact congrArg some (resolveImports_congr hev (indexExports fi))

def docFnA : Doclet :=
  { kind := "function", name := "A", longname := "pkg.A", scope := "static",
    meta := some ⟨"/proj", "a.js", 1, ⟨"FunctionDeclaration", "A", ""⟩⟩,
    augments := none, properties := none, params := none, returns := none }

def docMeA : Doclet :=
  { kind := "member", name := "exports", longname := "module.exports",
    scope := "static",
    meta := some ⟨"/proj", "a.js", 2, ⟨"Identifier", "module.exports", "A"⟩⟩,
    augments := none, properties := none, params := none, returns := none }

def inputA : FileInput := ⟨"/proj/a.js", ⟨[], [], []⟩, [docFnA, docMeA]⟩

def inputB : FileInput := ⟨"/proj/b.js", ⟨[], [⟨"A", "./a", ""⟩], []⟩, []⟩

/-- Witness for claim C8: a two-file project delivered in both orders
yields the same record for each of the two files. -/
theorem pipelineOrderDeterminism_witness :
    lookupL (resolveBarrier (buildReg [inputA, inputB])) "/proj/a.js" =
      lookupL (resolveBarrier (buildReg [inputB, inputA])) "/proj/a.js" ∧
    lookupL (resolveBarrier (buildReg [inputA, inputB])) "/proj/b.js" =
      lookupL (resolveBarrier (buildReg [inputB, inputA])) "/proj/b.js" := by
  constructor
  · exact pipelineOrderDeterminism [inputA, inputB] [inputB, inputA]
      (List.Perm.swap inputB inputA []) (by decide) (by decide) "/proj/a.js"
  · exact pipelineOrderDeterminism [inputA, inputB] [inputB, inputA]
      (List.Perm.swap inputB inputA []) (by decide) (by decide) "/proj/b.js"

/-! ## Claim C1: the end-to-end scenario -/

def docWidgetFn : Doclet :=
  { kind := "function", name := "Widget", longname := "pkg.Widget",
    scope := "static",
    meta := some ⟨"/proj", "a.js", 1, ⟨"FunctionDeclaration", "Widget", ""⟩⟩,
    augments := none, properties := none, params := none, returns := none }

def docModuleExportsWidget : Doclet :=
  { kind := "member", name := "exports", longname := "module.exports",
    scope := "static",
    meta := some ⟨"/proj", "a.js", 2,
      ⟨"Identifier", "module.exports", "Widget"⟩⟩,
    augments := none, properties := none, params := none, returns := none }

def docExportsWidget : Doclet :=
  { kind := "member", name := "Widget", longname := "exports.Widget",
    scope := "static",
    meta := some ⟨"/proj", "a.js", 2,
      ⟨"Identifier", "exports.Widget", "Widget"⟩⟩,
    augments := none, properties := none, params := none, returns := none }

def docParamF : Doclet :=
  { kind := "function", name := "f", longname := "f", scope := "global",
    meta := some ⟨"/proj", "b.js", 5, ⟨"FunctionDeclaration", "f", ""⟩⟩,
    augments := none, properties := none,
    params := some [⟨some ⟨["Widget"]⟩⟩], returns := none }

/-- File B: the destructuring load-and-bind of Widget from the
relative path dot-slash-a, plus one function whose parameter type is
the single name Widget. -/
def fileB : FileInput :=
  ⟨"/proj/b.js", ⟨[], [], [⟨"Widget", "./a", ""⟩]⟩, [docParamF]⟩

/-- File A as the claim states it: function Widget with canonical name
pkg.Widget, and the whole-module assignment module.exports = Widget. -/
def fileAModuleExports : FileInput :=
  ⟨"/proj/a.js", ⟨[], [], []⟩, [docWidgetFn, docModuleExportsWidget]⟩

/-- File A in the amended scenario: function Widget with canonical
name pkg.Widget, exported through the property assignment
exports.Widget = Widget. -/
def fileAExportsWidget : FileInput :=
  ⟨"/proj/a.js", ⟨[], [], []⟩, [docWidgetFn, docExportsWidget]⟩

/-- The parameter type names of the third declaration record delivered
to processingComplete (the File B function) after the full run. -/
def paramTypeNamesAfterRun (inputs : List FileInput) : Option (List String) :=
  match runPipeline inputs with
  | Except.error _ => none
  | Except.ok (_, ds) =>
    match ds.get? 2 with
    | none => none
    | some d =>
      match d.params with
      | some (p :: _) => p.type.map TypeRec.names
      | _ => none

/-- Claim C1 counterexample: running the scenario exactly as claimed
(File A holds function Widget with canonical name pkg.Widget plus
module.exports = Widget; File B destructures Widget from the require
of file a and types a parameter Widget) leaves File B with parameter
type name equal to the empty string, not pkg.Widget.  The destructured
name Widget is looked up as an export-table key, but the export table
of File A holds only the star entry, so the alias resolves to null and
the join turns it into the empty string. -/
theorem endToEndCounterexample :
    paramTypeNamesAfterRun [fileAModuleExports, fileB] = some [""] ∧
    some [""] ≠ some ["pkg.Widget"] := ⟨rfl, by decide⟩

/-- Claim C1 (amended): in the same scenario with File A exporting the
function through the property assignment exports.Widget = Widget
(instead of replacing the whole module object), the full run rewrites
the parameter type of File B to exactly pkg.Widget. -/
theorem endToEndResolved :
    paramTypeNamesAfterRun [fileAExportsWidget, fileB] = some ["pkg.Widget"] :=
  rfl

end ImportAliases
